import Mathlib

/-!
# Verification of the FiveM webhook scanner pipeline

Shallow embedding of the core pipeline of `fivem_webhook_manager_v11.py`:
strings are modelled as `List Char` (ASCII semantics for the character
classes), Python dict/set state as association lists, and the remote
messaging platform as an explicit oracle.  Each component is translated
from the source: `EnhancedScanner._is_valid_webhook`,
`EnhancedScanner._scan_file`, `EnhancedScanner._extract_resource_name`,
`WebhookCreator.create_all` / `_sanitize_name`, `FileUpdater._update_file`
(including the backup-name collision loop) and `FileUpdater.update_all`.
-/

namespace FWScan

/-- Strings are lists of characters (Python `str`, ASCII-level model). -/
abbrev Str := List Char

/-- Python `str.lower()` (ASCII model). -/
def lowerStr (s : Str) : Str := s.map Char.toLower

/-- `isPrefB x l = true` iff `x` is a prefix of `l` (Python `l.startswith(x)`). -/
def isPrefB : Str → Str → Bool
  | [], _ => true
  | _ :: _, [] => false
  | a :: as, b :: bs => a == b && isPrefB as bs

/-- Python `x in h`: `x` occurs as contiguous substring of `h`. -/
def containsB (x : Str) : Str → Bool
  | [] => isPrefB x []
  | c :: rest => isPrefB x (c :: rest) || containsB x rest

/-- Python `s.split('/')`: always returns at least one (possibly empty) segment,
    keeps empty segments. -/
def splitSlash : Str → List Str
  | [] => [[]]
  | c :: rest =>
    if c = '/' then [] :: splitSlash rest
    else
      match splitSlash rest with
      | [] => [[c]]
      | s :: ss => (c :: s) :: ss

/-- Python `str.isdigit()`: nonempty and all digits (ASCII model). -/
def isDigitStrPy (s : Str) : Bool := !s.isEmpty && s.all Char.isDigit

/-- Characters allowed in a webhook token: `c.isalnum() or c in '-_'`. -/
def tokenChar (c : Char) : Bool := c.isAlphanum || c == '-' || c == '_'

/-- First accepted hostname+path fragment of `_is_valid_webhook`. -/
def domain1 : Str := "discord.com/api/webhooks/".toList

/-- Second accepted hostname+path fragment of `_is_valid_webhook`. -/
def domain2 : Str := "discordapp.com/api/webhooks/".toList

/-- `parts[-2]` of `url.split('/')`: the webhook id segment. -/
def webhook_id (url : Str) : Str := (splitSlash url).dropLast.getLastD []

/-- `parts[-1]` of `url.split('/')`: the webhook token segment. -/
def webhook_token (url : Str) : Str := (splitSlash url).getLastD []

/-- `EnhancedScanner._is_valid_webhook` (source lines 201–223), translated
clause by clause: length guard, lowercased substring check for the two
accepted domain fragments, `len(url.split('/')) >= 7`, all-digit id of
length ≥ 17 at `parts[-2]`, and a ≥ 50-character `[alnum-_]` token at
`parts[-1]`. -/
def is_valid_webhook (url : Str) : Bool :=
  if url = [] ∨ url.length < 50 then false
  else if !(containsB domain1 (lowerStr url) || containsB domain2 (lowerStr url)) then false
  else if (splitSlash url).length < 7 then false
  else if !isDigitStrPy (webhook_id url) || (webhook_id url).length < 17 then false
  else if (webhook_token url).length < 50 || !((webhook_token url).all tokenChar) then false
  else true

/-- `x` occurs as a contiguous substring of `h`. -/
def InfixOf (x h : Str) : Prop := ∃ s t, h = s ++ x ++ t

/-- The spec's validity condition for a webhook URL, written from the spec's
words: length ≥ 50; the lowercased URL contains an accepted hostname followed
by the fixed webhook path prefix; splitting on `/` yields ≥ 7 segments; the
second-to-last segment is all digits with length ≥ 17; the last segment has
length ≥ 50 and consists only of alphanumerics, `-`, `_`. -/
def ValidSpec (u : Str) : Prop :=
  50 ≤ u.length ∧
  (InfixOf domain1 (lowerStr u) ∨ InfixOf domain2 (lowerStr u)) ∧
  7 ≤ (splitSlash u).length ∧
  (∀ c ∈ webhook_id u, c.isDigit = true) ∧
  17 ≤ (webhook_id u).length ∧
  50 ≤ (webhook_token u).length ∧
  (∀ c ∈ webhook_token u, c.isAlphanum = true ∨ c = '-' ∨ c = '_')

theorem isPrefB_iff (x : Str) : ∀ l, isPrefB x l = true ↔ ∃ t, l = x ++ t := by
  induction x with
  | nil => intro l; simp [isPrefB]
  | cons a as ih =>
    intro l
    cases l with
    | nil => simp [isPrefB]
    | cons b bs =>
      simp only [isPrefB, Bool.and_eq_true, beq_iff_eq, ih bs, List.cons_append]
      constructor
      · rintro ⟨rfl, t, rfl⟩; exact ⟨t, rfl⟩
      · rintro ⟨t, h⟩; cases h; exact ⟨rfl, t, rfl⟩

theorem containsB_iff (x : Str) : ∀ h, containsB x h = true ↔ InfixOf x h := by
  intro h
  induction h with
  | nil =>
    simp only [containsB, isPrefB_iff, InfixOf]
    constructor
    · rintro ⟨t, ht⟩
      rcases List.append_eq_nil.mp ht.symm with ⟨hx, htn⟩
      exact ⟨[], [], by simp [hx, htn]⟩
    · rintro ⟨s, t, hst⟩
      rcases List.append_eq_nil.mp hst.symm with ⟨h2, ht⟩
      rcases List.append_eq_nil.mp h2 with ⟨hs, hx⟩
      exact ⟨[], by simp [hx, ht]⟩
  | cons c rest ih =>
    simp only [containsB, Bool.or_eq_true, isPrefB_iff, ih, InfixOf]
    constructor
    · rintro (⟨t, ht⟩ | ⟨s, t, hst⟩)
      · exact ⟨[], t, by simp [ht]⟩
      · exact ⟨c :: s, t, by simp [hst]⟩
    · rintro ⟨s, t, hst⟩
      cases s with
      | nil => exact Or.inl ⟨t, by simpa using hst⟩
      | cons s0 ss =>
        right
        refine ⟨ss, t, ?_⟩
        have h2 : c :: rest = s0 :: (ss ++ x ++ t) := by simpa using hst
        exact (List.cons.injEq _ _ _ _ ▸ h2).2

theorem valid_iff (u : Str) : is_valid_webhook u = true ↔ ValidSpec u := by
  unfold is_valid_webhook
  split_ifs with h1 h2 h3 h4 h5
  · simp only [false_iff]
    rintro ⟨hl, -⟩
    rcases h1 with rfl | h1
    · simp at hl
    · omega
  · simp only [false_iff]
    rintro ⟨-, hdom, -⟩
    rw [Bool.not_eq_true', Bool.or_eq_false_iff] at h2
    rcases hdom with hd | hd
    · exact absurd ((containsB_iff _ _).mpr hd) (by simp [h2.1])
    · exact absurd ((containsB_iff _ _).mpr hd) (by simp [h2.2])
  · simp only [false_iff]
    rintro ⟨-, -, hlen, -⟩
    omega
  · simp only [false_iff]
    rintro ⟨-, -, -, hdig, hidlen, -⟩
    rcases (Bool.or_eq_true _ _).mp h4 with hb | hb
    · rw [Bool.not_eq_true'] at hb
      unfold isDigitStrPy at hb
      rw [Bool.and_eq_false_iff] at hb
      rcases hb with hb | hb
      · have : webhook_id u = [] := by
          cases hx : webhook_id u <;> simp [hx] at hb ⊢
        rw [this] at hidlen; simp at hidlen
      · rcases (List.all_eq_false).mp hb with ⟨c, hc, hcd⟩
        exact absurd (hdig c hc) (by simp [hcd])
    · simp only [decide_eq_true_eq] at hb
      omega
  · simp only [false_iff]
    rintro ⟨-, -, -, -, -, htok, hall⟩
    rcases (Bool.or_eq_true _ _).mp h5 with hb | hb
    · simp only [decide_eq_true_eq] at hb
      omega
    · rw [Bool.not_eq_true'] at hb
      rcases (List.all_eq_false).mp hb with ⟨c, hc, hcd⟩
      rcases hall c hc with h | h | h
      · simp [tokenChar, h] at hcd
      · simp [tokenChar, h] at hcd
      · simp [tokenChar, h] at hcd
  · simp only [true_iff]
    push_neg at h1
    rw [Bool.or_eq_true, not_or] at h4
    obtain ⟨h4a, h4b⟩ := h4
    rw [Bool.not_eq_true, Bool.not_eq_false'] at h4a
    simp only [decide_eq_true_eq] at h4b
    rw [Bool.or_eq_true, not_or] at h5
    obtain ⟨h5a, h5b⟩ := h5
    simp only [decide_eq_true_eq] at h5a
    rw [Bool.not_eq_true, Bool.not_eq_false'] at h5b
    have hdom : (containsB domain1 (lowerStr u) || containsB domain2 (lowerStr u)) = true := by
      rcases Bool.eq_false_or_eq_true
          (containsB domain1 (lowerStr u) || containsB domain2 (lowerStr u)) with h | h
      · exact h
      · exact absurd (by simp [h]) h2
    obtain ⟨-, hdig⟩ := Bool.and_eq_true _ _ |>.mp h4a
    refine ⟨by omega, ?_, by omega, ?_, by omega, by omega, ?_⟩
    · rcases (Bool.or_eq_true _ _).mp hdom with h | h
      · exact Or.inl ((containsB_iff _ _).mp h)
      · exact Or.inr ((containsB_iff _ _).mp h)
    · exact fun c hc => List.all_eq_true.mp hdig c hc
    · intro c hc
      have := List.all_eq_true.mp h5b c hc
      unfold tokenChar at this
      rcases (Bool.or_eq_true _ _).mp this with h | h
      · rcases (Bool.or_eq_true _ _).mp h with h | h
        · exact Or.inl h
        · exact Or.inr (Or.inl (by simpa using h))
      · exact Or.inr (Or.inr (by simpa using h))

/-- A well-formed webhook URL: 17-digit numeric id, 50-character token. -/
def exGoodUrl : Str :=
  "https://discord.com/api/webhooks/12345678901234567/".toList ++ List.replicate 50 'a'

/-- Same URL with the token shortened below 50 characters. -/
def exShortToken : Str :=
  "https://discord.com/api/webhooks/12345678901234567/".toList ++ List.replicate 49 'a'

/-- Same URL with a non-numeric id. -/
def exNonNumericId : Str :=
  "https://discord.com/api/webhooks/1234567890123456x/".toList ++ List.replicate 50 'a'

/-- Same URL with a 16-digit id. -/
def exShortId : Str :=
  "https://discord.com/api/webhooks/1234567890123456/".toList ++ List.replicate 50 'a'

/-- **C1.** `_is_valid_webhook` accepts a string iff the spec's five conditions
hold: length ≥ 50; the lowercased URL contains an accepted hostname followed by
the fixed webhook path prefix; splitting on `/` yields ≥ 7 segments; the
second-to-last segment is all digits with length ≥ 17; the last segment has
length ≥ 50 and consists only of alphanumerics, `-`, `_`.  In particular a URL
composed with a 17-digit numeric id and a 50-character token is accepted, while
a 49-character token, a non-numeric id, or a 16-digit id is rejected.
Validation is modelled as a total pure Boolean function. -/
theorem C1_validator_iff_spec :
    (∀ u : Str, is_valid_webhook u = true ↔ ValidSpec u) ∧
    is_valid_webhook exGoodUrl = true ∧
    is_valid_webhook exShortToken = false ∧
    is_valid_webhook exNonNumericId = false ∧
    is_valid_webhook exShortId = false :=
  ⟨valid_iff, by decide, by decide, by decide, by decide⟩

/-- A URL whose host is `notdiscord.com`, yet whose text contains
`discord.com/api/webhooks/` as a substring. -/
def exForeignHostUrl : Str :=
  "https://notdiscord.com/api/webhooks/12345678901234567/".toList ++ List.replicate 50 'a'

/-- The hostname of a `scheme://host/...` URL: segment 2 of the `/`-split. -/
def hostOf (u : Str) : Str := (splitSlash u).getD 2 []

/-- **C10.** The hostname check of `_is_valid_webhook` is a substring test on
the lowercased URL, so a URL with host `notdiscord.com` (which contains
`discord.com/api/webhooks/` as a substring) passes the strict validator even
though its hostname is none of the accepted Discord hostnames. -/
theorem C10_foreign_host_accepted :
    is_valid_webhook exForeignHostUrl = true ∧
    hostOf exForeignHostUrl = "notdiscord.com".toList ∧
    hostOf exForeignHostUrl ≠ "discord.com".toList ∧
    hostOf exForeignHostUrl ≠ "discordapp.com".toList ∧
    hostOf exForeignHostUrl ≠ "ptb.discord.com".toList := by
  refine ⟨by decide, by decide, by decide, by decide, by decide⟩

/-- The sentinel resource name `'unknown'`. -/
def unknownName : Str := "unknown".toList

/-- The marker segment `'resources'`. -/
def resourcesMarker : Str := "resources".toList

/-- Python `s.strip('[]')`: drop leading and trailing `[` / `]` characters. -/
def stripBrackets (s : Str) : Str :=
  ((s.dropWhile fun c => c == '[' || c == ']').reverse.dropWhile
    fun c => c == '[' || c == ']').reverse

/-- Python `s.strip()`: drop leading and trailing whitespace. -/
def stripWs (s : Str) : Str :=
  ((s.dropWhile Char.isWhitespace).reverse.dropWhile Char.isWhitespace).reverse

/-- Index of the first occurrence of `x` (Python `list.index`, as an option). -/
def firstIdx (x : Str) : List Str → Option Nat
  | [] => none
  | p :: rest => if p = x then some 0 else (firstIdx x rest).map (· + 1)

/-- First block of `_extract_resource_name`: if `'resources'` occurs among the
segments and has a following segment, that following segment. -/
def markerRule (parts : List Str) : Option Str :=
  match firstIdx resourcesMarker parts with
  | some i => if i + 1 < parts.length then some (parts.getD (i + 1) []) else none
  | none => none

/-- Second block of `_extract_resource_name`: bracket-delimited first segment
yields the second segment if present (else the bracket segment itself);
otherwise the first segment. -/
def fallbackRule : List Str → Option Str
  | [] => none
  | p0 :: rest =>
    some (if p0.head? = some '[' ∧ p0.getLast? = some ']' then
            match rest with
            | p1 :: _ => p1
            | [] => p0
          else p0)

/-- `EnhancedScanner._extract_resource_name` (source lines 164–199), acting on
the relative path's segments (`Path.parts`).  Python's falsiness of
`None`/`''` is modelled with `Option Str` plus an emptiness test; the final
block strips brackets and whitespace and falls back to `'unknown'`. -/
def extract_resource_name (parts : List Str) : Str :=
  if parts = [] then unknownName
  else
    match (if markerRule parts = none ∨ markerRule parts = some [] then fallbackRule parts
           else markerRule parts) with
    | some r =>
      if r ≠ [] then
        (if stripWs (stripBrackets r) = [] then unknownName else stripWs (stripBrackets r))
      else unknownName
    | none => unknownName

/-- Cleanup step as the spec words it: strip surrounding brackets and
whitespace; if the result is empty fall back to `'unknown'`. -/
def cleanupName (r : Str) : Str :=
  if stripWs (stripBrackets r) = [] then unknownName else stripWs (stripBrackets r)

/-- Rules 2 and 3 of the spec's attribution precedence: a bracket-delimited
first segment yields the second segment if present (else the bracket segment
itself); otherwise the first segment; cleanup applies in all cases. -/
def bracketRule : List Str → Str
  | [] => unknownName
  | p0 :: rest =>
    if p0.head? = some '[' ∧ p0.getLast? = some ']' then
      match rest with
      | p1 :: _ => cleanupName p1
      | [] => cleanupName p0
    else cleanupName p0

/-- Resource attribution as the spec words it: rule 1 (`resources` marker with
a following segment), else rules 2/3, with cleanup applied in all cases. -/
def attributorSpec (parts : List Str) : Str :=
  match firstIdx resourcesMarker parts with
  | some i =>
    if i + 1 < parts.length then cleanupName (parts.getD (i + 1) [])
    else bracketRule parts
  | none => bracketRule parts

theorem fallback_eq_bracket (p0 : Str) (rest : List Str)
    (hne : ∀ p ∈ p0 :: rest, p ≠ []) :
    (match fallbackRule (p0 :: rest) with
     | some r =>
       if r ≠ [] then
         (if stripWs (stripBrackets r) = [] then unknownName else stripWs (stripBrackets r))
       else unknownName
     | none => unknownName) = bracketRule (p0 :: rest) := by
  simp only [fallbackRule, bracketRule, cleanupName]
  by_cases hb : p0.head? = some '[' ∧ p0.getLast? = some ']'
  · rw [if_pos hb, if_pos hb]
    cases rest with
    | nil =>
      have hp0 : p0 ≠ [] := hne p0 (by simp)
      simp [hp0]
    | cons p1 rs =>
      have hp1 : p1 ≠ [] := hne p1 (by simp)
      simp [hp1]
  · have hp0 : p0 ≠ [] := hne p0 (by simp)
    rw [if_neg hb, if_neg hb]
    simp [hp0]

theorem extract_eq_spec (parts : List Str) (hne : ∀ p ∈ parts, p ≠ []) :
    extract_resource_name parts = attributorSpec parts := by
  cases parts with
  | nil => rfl
  | cons p0 rest =>
    cases hf : firstIdx resourcesMarker (p0 :: rest) with
    | none =>
      have hm : markerRule (p0 :: rest) = none := by unfold markerRule; rw [hf]
      have h1 : extract_resource_name (p0 :: rest) =
          (match fallbackRule (p0 :: rest) with
           | some r =>
             if r ≠ [] then
               (if stripWs (stripBrackets r) = [] then unknownName
                else stripWs (stripBrackets r))
             else unknownName
           | none => unknownName) := by
        unfold extract_resource_name
        rw [if_neg (List.cons_ne_nil p0 rest), hm, if_pos (Or.inl rfl)]
      have h2 : attributorSpec (p0 :: rest) = bracketRule (p0 :: rest) := by
        unfold attributorSpec; rw [hf]
      rw [h1, h2]
      exact fallback_eq_bracket p0 rest hne
    | some i =>
      by_cases hi : i + 1 < (p0 :: rest).length
      · have hmem : (p0 :: rest).getD (i + 1) [] ∈ p0 :: rest := by
          rw [List.getD_eq_getElem _ _ hi]
          exact List.getElem_mem hi
        have hne2 : (p0 :: rest).getD (i + 1) [] ≠ [] := hne _ hmem
        have hne3 : ¬rest[i]?.getD [] = [] := by
          simpa [List.getD_cons_succ, List.getD_eq_getElem?_getD] using hne2
        have hm : markerRule (p0 :: rest) = some ((p0 :: rest).getD (i + 1) []) := by
          unfold markerRule; rw [hf]; exact if_pos hi
        have h1 : extract_resource_name (p0 :: rest) =
            cleanupName ((p0 :: rest).getD (i + 1) []) := by
          unfold extract_resource_name
          rw [if_neg (List.cons_ne_nil p0 rest), hm,
            if_neg (show ¬(some ((p0 :: rest).getD (i + 1) []) = none ∨
              some ((p0 :: rest).getD (i + 1) []) = some []) by simp [hne3])]
          simp [hne3, cleanupName]
        have h2 : attributorSpec (p0 :: rest) =
            cleanupName ((p0 :: rest).getD (i + 1) []) := by
          unfold attributorSpec; rw [hf]; exact if_pos hi
        rw [h1, h2]
      · have hm : markerRule (p0 :: rest) = none := by
          unfold markerRule; rw [hf]; exact if_neg hi
        have h1 : extract_resource_name (p0 :: rest) =
            (match fallbackRule (p0 :: rest) with
             | some r =>
               if r ≠ [] then
                 (if stripWs (stripBrackets r) = [] then unknownName
                  else stripWs (stripBrackets r))
               else unknownName
             | none => unknownName) := by
          unfold extract_resource_name
          rw [if_neg (List.cons_ne_nil p0 rest), hm, if_pos (Or.inl rfl)]
        have h2 : attributorSpec (p0 :: rest) = bracketRule (p0 :: rest) := by
          unfold attributorSpec; rw [hf]; exact if_neg hi
        rw [h1, h2]
        exact fallback_eq_bracket p0 rest hne

theorem extract_ne_nil (parts : List Str) : extract_resource_name parts ≠ [] := by
  unfold extract_resource_name
  split
  · decide
  · split
    · split_ifs with h1 h2
      · decide
      · exact h2
      · decide
    · decide

/-- **C4.** On every relative path with nonempty segments, the attributor
agrees with the spec's precedence (rule 1: segment after the first
`resources` marker; rule 2: bracket-delimited first segment yields the second
segment if present, else the bracket segment; rule 3: the first segment;
cleanup strips brackets/whitespace with `'unknown'` fallback); the result is
always nonempty; and the spec's four examples hold. -/
theorem C4_attribution_precedence :
    (∀ parts : List Str, (∀ p ∈ parts, p ≠ []) →
      extract_resource_name parts = attributorSpec parts) ∧
    (∀ parts : List Str, extract_resource_name parts ≠ []) ∧
    extract_resource_name
      ["srv".toList, "resources".toList, "myresource".toList, "file.lua".toList] =
      "myresource".toList ∧
    extract_resource_name ["[category]".toList, "myresource".toList, "file.lua".toList] =
      "myresource".toList ∧
    extract_resource_name ["myresource".toList, "file.lua".toList] = "myresource".toList ∧
    extract_resource_name ["[ ]".toList] = unknownName :=
  ⟨extract_eq_spec, extract_ne_nil, by decide, by decide, by decide, by decide⟩

/-- Fuel-driven core of Python `s.count(x)`: scan left to right, counting
non-overlapping occurrences and skipping past each match.  The empty needle
counts `len(s) + 1` as in Python.  Fuel `> s.length` is always enough. -/
def countOccF : Nat → Str → Str → Nat
  | 0, _, _ => 0
  | _ + 1, [], s => s.length + 1
  | _ + 1, _ :: _, [] => 0
  | f + 1, x0 :: xr, c :: rest =>
    if isPrefB (x0 :: xr) (c :: rest) then
      1 + countOccF f (x0 :: xr) ((c :: rest).drop (x0 :: xr).length)
    else countOccF f (x0 :: xr) rest

/-- Python `s.count(x)` (non-overlapping, left to right). -/
def countOcc (x s : Str) : Nat := countOccF (s.length + 1) x s

/-- Fuel-driven core of Python `s.replace(x, repl)`: scan left to right,
replacing each non-overlapping occurrence.  The empty needle inserts `repl`
at every position as in Python. -/
def replaceAllF : Nat → Str → Str → Str → Str
  | 0, _, _, s => s
  | _ + 1, [], repl, s => repl ++ s.flatMap (fun c => c :: repl)
  | _ + 1, _ :: _, _, [] => []
  | f + 1, x0 :: xr, repl, c :: rest =>
    if isPrefB (x0 :: xr) (c :: rest) then
      repl ++ replaceAllF f (x0 :: xr) repl ((c :: rest).drop (x0 :: xr).length)
    else c :: replaceAllF f (x0 :: xr) repl rest

/-- Python `s.replace(x, repl)` (all non-overlapping occurrences). -/
def replaceAll (x repl s : Str) : Str := replaceAllF (s.length + 1) x repl s

theorem countOccF_congr :
    ∀ f g x s, s.length < f → s.length < g → countOccF f x s = countOccF g x s := by
  intro f
  induction f with
  | zero => intro g x s hf; omega
  | succ f ih =>
    intro g x s hf hg
    cases g with
    | zero => omega
    | succ g =>
      cases x with
      | nil => rfl
      | cons x0 xr =>
        cases s with
        | nil => rfl
        | cons c rest =>
          show (if isPrefB (x0 :: xr) (c :: rest) then
                  1 + countOccF f (x0 :: xr) ((c :: rest).drop (x0 :: xr).length)
                else countOccF f (x0 :: xr) rest) =
               (if isPrefB (x0 :: xr) (c :: rest) then
                  1 + countOccF g (x0 :: xr) ((c :: rest).drop (x0 :: xr).length)
                else countOccF g (x0 :: xr) rest)
          by_cases hp : isPrefB (x0 :: xr) (c :: rest) = true
          · rw [if_pos hp, if_pos hp]
            have hd : ((c :: rest).drop (x0 :: xr).length).length ≤ rest.length := by
              rw [List.length_drop]
              simp only [List.length_cons]
              omega
            have := ih g (x0 :: xr) ((c :: rest).drop (x0 :: xr).length)
              (by simp only [List.length_cons] at hf; omega)
              (by simp only [List.length_cons] at hg; omega)
            omega
          · rw [if_neg hp, if_neg hp]
            exact ih g (x0 :: xr) rest
              (by simp only [List.length_cons] at hf; omega)
              (by simp only [List.length_cons] at hg; omega)

theorem countOcc_cons (x0 : Char) (xr : Str) (c : Char) (rest : Str) :
    countOcc (x0 :: xr) (c :: rest) =
      if isPrefB (x0 :: xr) (c :: rest) then
        1 + countOcc (x0 :: xr) ((c :: rest).drop (x0 :: xr).length)
      else countOcc (x0 :: xr) rest := by
  have h1 : countOcc (x0 :: xr) (c :: rest) =
      (if isPrefB (x0 :: xr) (c :: rest) then
        1 + countOccF (rest.length + 1) (x0 :: xr) ((c :: rest).drop (x0 :: xr).length)
      else countOccF (rest.length + 1) (x0 :: xr) rest) := rfl
  rw [h1]
  by_cases hp : isPrefB (x0 :: xr) (c :: rest) = true
  · rw [if_pos hp, if_pos hp]
    have hd : ((c :: rest).drop (x0 :: xr).length).length ≤ rest.length := by
      rw [List.length_drop]
      simp only [List.length_cons]
      omega
    have := countOccF_congr (rest.length + 1)
      (((c :: rest).drop (x0 :: xr).length).length + 1)
      (x0 :: xr) ((c :: rest).drop (x0 :: xr).length) (by omega) (by omega)
    unfold countOcc
    omega
  · rw [if_neg hp, if_neg hp]
    rfl

theorem replaceAllF_congr :
    ∀ f g x repl s, s.length < f → s.length < g →
      replaceAllF f x repl s = replaceAllF g x repl s := by
  intro f
  induction f with
  | zero => intro g x repl s hf; omega
  | succ f ih =>
    intro g x repl s hf hg
    cases g with
    | zero => omega
    | succ g =>
      cases x with
      | nil => rfl
      | cons x0 xr =>
        cases s with
        | nil => rfl
        | cons c rest =>
          show (if isPrefB (x0 :: xr) (c :: rest) then
                  repl ++ replaceAllF f (x0 :: xr) repl ((c :: rest).drop (x0 :: xr).length)
                else c :: replaceAllF f (x0 :: xr) repl rest) =
               (if isPrefB (x0 :: xr) (c :: rest) then
                  repl ++ replaceAllF g (x0 :: xr) repl ((c :: rest).drop (x0 :: xr).length)
                else c :: replaceAllF g (x0 :: xr) repl rest)
          by_cases hp : isPrefB (x0 :: xr) (c :: rest) = true
          · rw [if_pos hp, if_pos hp,
              ih g (x0 :: xr) repl ((c :: rest).drop (x0 :: xr).length)
                (by rw [List.length_drop]; simp only [List.length_cons] at hf ⊢; omega)
                (by rw [List.length_drop]; simp only [List.length_cons] at hg ⊢; omega)]
          · rw [if_neg hp, if_neg hp,
              ih g (x0 :: xr) repl rest
                (by simp only [List.length_cons] at hf; omega)
                (by simp only [List.length_cons] at hg; omega)]

theorem replaceAll_cons (x0 : Char) (xr : Str) (repl : Str) (c : Char) (rest : Str) :
    replaceAll (x0 :: xr) repl (c :: rest) =
      if isPrefB (x0 :: xr) (c :: rest) then
        repl ++ replaceAll (x0 :: xr) repl ((c :: rest).drop (x0 :: xr).length)
      else c :: replaceAll (x0 :: xr) repl rest := by
  have h1 : replaceAll (x0 :: xr) repl (c :: rest) =
      (if isPrefB (x0 :: xr) (c :: rest) then
        repl ++ replaceAllF (rest.length + 1) (x0 :: xr) repl ((c :: rest).drop (x0 :: xr).length)
      else c :: replaceAllF (rest.length + 1) (x0 :: xr) repl rest) := rfl
  rw [h1]
  by_cases hp : isPrefB (x0 :: xr) (c :: rest) = true
  · rw [if_pos hp, if_pos hp]
    unfold replaceAll
    rw [replaceAllF_congr (rest.length + 1)
      (((c :: rest).drop (x0 :: xr).length).length + 1)
      (x0 :: xr) repl ((c :: rest).drop (x0 :: xr).length)
      (by rw [List.length_drop]; simp only [List.length_cons]; omega) (by omega)]
  · rw [if_neg hp, if_neg hp]
    rfl

theorem isPrefB_append_self (x s : Str) : isPrefB x (x ++ s) = true :=
  (isPrefB_iff x (x ++ s)).mpr ⟨s, rfl⟩

theorem append_eq_append_of_le {a b c d : Str} (h : a ++ b = c ++ d)
    (hle : c.length ≤ a.length) : ∃ w, a = c ++ w := by
  refine ⟨a.drop c.length, ?_⟩
  have h1 : a.take c.length = c := by
    have h2 : (a ++ b).take c.length = a.take c.length :=
      List.take_append_of_le_length hle
    rw [h, List.take_left] at h2
    exact h2.symm
  conv_lhs => rw [← List.take_append_drop c.length a, h1]

theorem countOcc_append_of_noMatch (x0 : Char) (xr : Str) :
    ∀ (a s : Str), (∀ t, t <:+ a → t ≠ [] → isPrefB (x0 :: xr) (t ++ s) = false) →
      countOcc (x0 :: xr) (a ++ s) = countOcc (x0 :: xr) s := by
  intro a
  induction a with
  | nil => intro s _; rfl
  | cons c a' ih =>
    intro s hno
    rw [List.cons_append, countOcc_cons,
      if_neg (by
        have := hno (c :: a') (List.suffix_refl _) (List.cons_ne_nil _ _)
        rw [List.cons_append] at this
        simp [this])]
    exact ih s fun t ht htne =>
      hno t (ht.trans (List.suffix_cons c a')) htne

theorem countOcc_append_self (x0 : Char) (xr s : Str) :
    countOcc (x0 :: xr) ((x0 :: xr) ++ s) = 1 + countOcc (x0 :: xr) s := by
  rw [List.cons_append, countOcc_cons, if_pos (by
    have := isPrefB_append_self (x0 :: xr) s
    rw [List.cons_append] at this
    exact this)]
  congr 1
  rw [← List.cons_append, List.drop_left]

theorem replaceAll_append_of_noMatch (x0 : Char) (xr repl : Str) :
    ∀ (a s : Str), (∀ t, t <:+ a → t ≠ [] → isPrefB (x0 :: xr) (t ++ s) = false) →
      replaceAll (x0 :: xr) repl (a ++ s) = a ++ replaceAll (x0 :: xr) repl s := by
  intro a
  induction a with
  | nil => intro s _; rfl
  | cons c a' ih =>
    intro s hno
    rw [List.cons_append, replaceAll_cons,
      if_neg (by
        have := hno (c :: a') (List.suffix_refl _) (List.cons_ne_nil _ _)
        rw [List.cons_append] at this
        simp [this])]
    rw [ih s fun t ht htne => hno t (ht.trans (List.suffix_cons c a')) htne,
      List.cons_append]

theorem replaceAll_append_self (x0 : Char) (xr repl s : Str) :
    replaceAll (x0 :: xr) repl ((x0 :: xr) ++ s) = repl ++ replaceAll (x0 :: xr) repl s := by
  rw [List.cons_append, replaceAll_cons, if_pos (by
    have := isPrefB_append_self (x0 :: xr) s
    rw [List.cons_append] at this
    exact this)]
  congr 1
  rw [← List.cons_append, List.drop_left]

/-- No scan position inside `a` can start a match of `x0 :: xr` when no
character of `a` equals the needle's first character. -/
theorem noMatch_of_head (x0 : Char) (xr : Str) {a : Str} (s : Str)
    (hhead : ∀ ch ∈ a, ch ≠ x0) :
    ∀ t, t <:+ a → t ≠ [] → isPrefB (x0 :: xr) (t ++ s) = false := by
  intro t ht htne
  cases t with
  | nil => exact absurd rfl htne
  | cons th tt =>
    have hth : th ∈ a := ht.subset (by simp)
    show ((x0 == th) && isPrefB xr (tt ++ s)) = false
    have : (x0 == th) = false := by
      simp only [beq_eq_false_iff_ne, ne_eq]
      exact fun he => hhead th hth (he ▸ rfl)
    rw [this, Bool.false_and]

/-- No scan position inside an inserted `nw` block can start a match of the
needle `x`, provided `x` is not a substring of `nw` and the text following the
block is empty or opens with a character not occurring in `x`. -/
theorem noMatch_in_new (x0 : Char) (xr : Str) {nw : Str} (s : Str)
    (hinf : containsB (x0 :: xr) nw = false)
    (hs : s = [] ∨ ∃ ch s', s = ch :: s' ∧ ch ∉ x0 :: xr) :
    ∀ t, t <:+ nw → t ≠ [] → isPrefB (x0 :: xr) (t ++ s) = false := by
  intro t ht htne
  by_contra hcon
  rw [Bool.not_eq_false] at hcon
  obtain ⟨u, hu⟩ := (isPrefB_iff _ _).mp hcon
  rcases le_or_lt (x0 :: xr).length t.length with hle | hlt
  · obtain ⟨w, hw⟩ := append_eq_append_of_le hu hle
    obtain ⟨p, hp⟩ := ht
    have : InfixOf (x0 :: xr) nw := ⟨p, w, by rw [← hp, hw, List.append_assoc]⟩
    exact absurd ((containsB_iff _ _).mpr this) (by simp [hinf])
  · obtain ⟨w, hw⟩ := append_eq_append_of_le hu.symm (Nat.le_of_lt hlt)
    have hwne : w ≠ [] := by
      intro hwe
      rw [hwe, List.append_nil] at hw
      rw [hw] at hlt
      omega
    have hsu : s = w ++ u := by
      have h2 : t ++ s = t ++ (w ++ u) := by
        rw [hu, hw, List.append_assoc]
      exact List.append_cancel_left h2
    cases w with
    | nil => exact absurd rfl hwne
    | cons wh wt =>
      have hwh : wh ∈ x0 :: xr := by rw [hw]; simp
      rcases hs with rfl | ⟨ch, s2, hch, hchm⟩
      · rw [List.cons_append] at hsu
        exact absurd hsu (List.cons_ne_nil _ _).symm
      · rw [hch, List.cons_append] at hsu
        have : ch = wh := (List.cons.injEq _ _ _ _ ▸ hsu).1
        exact hchm (this ▸ hwh)

/-- Per-run statistics of `FileUpdater` (source line 309). -/
structure UpdStats where
  files_updated : Nat
  replacements : Nat
  files_backed_up : Nat
deriving DecidableEq

/-- The replacement loop of `FileUpdater._update_file` (source lines 345–349):
for each `(old, new)` pair in order, if `old` occurs in the current content,
count its occurrences on the current content, then replace all of them. -/
def applyMappings (ms : List (Str × Str)) (content : Str) : Str × Nat :=
  ms.foldl
    (fun acc p =>
      if containsB p.1 acc.1 = true then
        (replaceAll p.1 p.2 acc.1, acc.2 + countOcc p.1 acc.1)
      else acc)
    (content, 0)

/-- `FileUpdater._update_file` (source lines 337–370) at the content level:
the written content, the backup content (`some` of the pre-rewrite content
exactly when a replacement happened and backups are enabled; the backup is
written before the file is overwritten), and the updated statistics. -/
def update_file (ms : List (Str × Str)) (createBackups : Bool) (content : Str)
    (stats : UpdStats) : Str × Option Str × UpdStats :=
  if 0 < (applyMappings ms content).2 then
    ((applyMappings ms content).1,
     if createBackups then some content else none,
     { files_updated := stats.files_updated + 1,
       replacements := stats.replacements + (applyMappings ms content).2,
       files_backed_up := stats.files_backed_up + if createBackups then 1 else 0 })
  else (content, none, stats)

theorem countOcc_append_head_free (x : Str) (hx : x ≠ []) (a s : Str)
    (h : ∀ ch ∈ a, ch ∉ x) : countOcc x (a ++ s) = countOcc x s := by
  obtain ⟨x0, xr, rfl⟩ := List.exists_cons_of_ne_nil hx
  exact countOcc_append_of_noMatch x0 xr a s
    (noMatch_of_head x0 xr s fun ch hch he => h ch hch (he ▸ List.mem_cons_self x0 xr))

theorem countOcc_nil_of_ne (x : Str) (hx : x ≠ []) : countOcc x [] = 0 := by
  obtain ⟨x0, xr, rfl⟩ := List.exists_cons_of_ne_nil hx
  rfl

theorem countOcc_head_free_eq_zero (x : Str) (hx : x ≠ []) (a : Str)
    (h : ∀ ch ∈ a, ch ∉ x) : countOcc x a = 0 := by
  have := countOcc_append_head_free x hx a [] h
  rw [List.append_nil] at this
  rw [this, countOcc_nil_of_ne x hx]

theorem countOcc_front (x : Str) (hx : x ≠ []) (s : Str) :
    countOcc x (x ++ s) = 1 + countOcc x s := by
  obtain ⟨x0, xr, rfl⟩ := List.exists_cons_of_ne_nil hx
  exact countOcc_append_self x0 xr s

theorem countOcc_append_new (x : Str) (hx : x ≠ []) (nw s : Str)
    (hinf : containsB x nw = false)
    (hs : s = [] ∨ ∃ ch s', s = ch :: s' ∧ ch ∉ x) :
    countOcc x (nw ++ s) = countOcc x s := by
  obtain ⟨x0, xr, rfl⟩ := List.exists_cons_of_ne_nil hx
  exact countOcc_append_of_noMatch x0 xr nw s (noMatch_in_new x0 xr s hinf hs)

theorem replaceAll_append_head_free (x : Str) (hx : x ≠ []) (repl a s : Str)
    (h : ∀ ch ∈ a, ch ∉ x) : replaceAll x repl (a ++ s) = a ++ replaceAll x repl s := by
  obtain ⟨x0, xr, rfl⟩ := List.exists_cons_of_ne_nil hx
  exact replaceAll_append_of_noMatch x0 xr repl a s
    (noMatch_of_head x0 xr s fun ch hch he => h ch hch (he ▸ List.mem_cons_self x0 xr))

theorem replaceAll_nil_of_ne (x : Str) (hx : x ≠ []) (repl : Str) :
    replaceAll x repl [] = [] := by
  obtain ⟨x0, xr, rfl⟩ := List.exists_cons_of_ne_nil hx
  rfl

theorem replaceAll_front (x : Str) (hx : x ≠ []) (repl s : Str) :
    replaceAll x repl (x ++ s) = repl ++ replaceAll x repl s := by
  obtain ⟨x0, xr, rfl⟩ := List.exists_cons_of_ne_nil hx
  exact replaceAll_append_self x0 xr repl s

theorem countOcc_three_blocks (old c0 c1 c2 c3 : Str) (hold : old ≠ [])
    (h0 : ∀ ch ∈ c0, ch ∉ old) (h1 : ∀ ch ∈ c1, ch ∉ old)
    (h2 : ∀ ch ∈ c2, ch ∉ old) (h3 : ∀ ch ∈ c3, ch ∉ old) :
    countOcc old (c0 ++ (old ++ (c1 ++ (old ++ (c2 ++ (old ++ c3)))))) = 3 := by
  rw [countOcc_append_head_free old hold c0 _ h0,
    countOcc_front old hold,
    countOcc_append_head_free old hold c1 _ h1,
    countOcc_front old hold,
    countOcc_append_head_free old hold c2 _ h2,
    countOcc_front old hold,
    countOcc_head_free_eq_zero old hold c3 h3]

theorem replaceAll_three_blocks (old nw c0 c1 c2 c3 : Str) (hold : old ≠ [])
    (h0 : ∀ ch ∈ c0, ch ∉ old) (h1 : ∀ ch ∈ c1, ch ∉ old)
    (h2 : ∀ ch ∈ c2, ch ∉ old) (h3 : ∀ ch ∈ c3, ch ∉ old) :
    replaceAll old nw (c0 ++ (old ++ (c1 ++ (old ++ (c2 ++ (old ++ c3)))))) =
      c0 ++ (nw ++ (c1 ++ (nw ++ (c2 ++ (nw ++ c3))))) := by
  rw [replaceAll_append_head_free old hold nw c0 _ h0,
    replaceAll_front old hold,
    replaceAll_append_head_free old hold nw c1 _ h1,
    replaceAll_front old hold,
    replaceAll_append_head_free old hold nw c2 _ h2,
    replaceAll_front old hold]
  have : replaceAll old nw c3 = c3 := by
    have h := replaceAll_append_head_free old hold nw c3 [] h3
    rw [List.append_nil, replaceAll_nil_of_ne old hold, List.append_nil] at h
    exact h
  rw [this]

theorem countOcc_old_result_zero (old nw c0 c1 c2 c3 : Str) (hold : old ≠ [])
    (h0 : ∀ ch ∈ c0, ch ∉ old) (h1 : ∀ ch ∈ c1, ch ∉ old)
    (h2 : ∀ ch ∈ c2, ch ∉ old) (h3 : ∀ ch ∈ c3, ch ∉ old)
    (hc1 : c1 ≠ []) (hc2 : c2 ≠ [])
    (hnotin : containsB old nw = false) :
    countOcc old (c0 ++ (nw ++ (c1 ++ (nw ++ (c2 ++ (nw ++ c3)))))) = 0 := by
  obtain ⟨a1, c1', rfl⟩ := List.exists_cons_of_ne_nil hc1
  obtain ⟨a2, c2', rfl⟩ := List.exists_cons_of_ne_nil hc2
  have hs3 : c3 = [] ∨ ∃ ch s', c3 = ch :: s' ∧ ch ∉ old := by
    cases c3 with
    | nil => exact Or.inl rfl
    | cons a3 c3' => exact Or.inr ⟨a3, c3', rfl, h3 a3 (by simp)⟩
  rw [countOcc_append_head_free old hold c0 _ h0,
    countOcc_append_new old hold nw _ hnotin
      (Or.inr ⟨a1, c1' ++ (nw ++ ((a2 :: c2') ++ (nw ++ c3))), by simp, h1 a1 (by simp)⟩),
    countOcc_append_head_free old hold (a1 :: c1') _ h1,
    countOcc_append_new old hold nw _ hnotin
      (Or.inr ⟨a2, c2' ++ (nw ++ c3), by simp, h2 a2 (by simp)⟩),
    countOcc_append_head_free old hold (a2 :: c2') _ h2,
    countOcc_append_new old hold nw _ hnotin hs3,
    countOcc_head_free_eq_zero old hold c3 h3]

theorem countOcc_new_result_three (nw c0 c1 c2 c3 : Str) (hnew : nw ≠ [])
    (h0 : ∀ ch ∈ c0, ch ∉ nw) (h1 : ∀ ch ∈ c1, ch ∉ nw)
    (h2 : ∀ ch ∈ c2, ch ∉ nw) (h3 : ∀ ch ∈ c3, ch ∉ nw) :
    countOcc nw (c0 ++ (nw ++ (c1 ++ (nw ++ (c2 ++ (nw ++ c3)))))) = 3 := by
  rw [countOcc_append_head_free nw hnew c0 _ h0,
    countOcc_front nw hnew,
    countOcc_append_head_free nw hnew c1 _ h1,
    countOcc_front nw hnew,
    countOcc_append_head_free nw hnew c2 _ h2,
    countOcc_front nw hnew,
    countOcc_head_free_eq_zero nw hnew c3 h3]

/-- **C2 (amended).** Rewriting a file whose content consists of exactly three
occurrences of the nonempty URL string `old`, separated by filler segments
sharing no character with `old` or `nw` (the middle fillers nonempty) and with
`old` not a substring of `nw`, under the single mapping `old → nw`: the content
then contains `old` exactly three times; the rewrite (with backups enabled)
produces the content with the three occurrences literally substituted, records
a backup byte-identical to the original before overwriting, and increments the
replacement counter by 3, the files-updated counter by 1 and the backup counter
by 1; the rewritten content contains `nw` exactly three times and `old` zero
times.  Replacement is exact literal substring replacement. -/
theorem C2_amended_rewrite (old nw c0 c1 c2 c3 : Str) (st : UpdStats)
    (hold : old ≠ []) (hnew : nw ≠ [])
    (h0o : ∀ ch ∈ c0, ch ∉ old) (h1o : ∀ ch ∈ c1, ch ∉ old)
    (h2o : ∀ ch ∈ c2, ch ∉ old) (h3o : ∀ ch ∈ c3, ch ∉ old)
    (h0n : ∀ ch ∈ c0, ch ∉ nw) (h1n : ∀ ch ∈ c1, ch ∉ nw)
    (h2n : ∀ ch ∈ c2, ch ∉ nw) (h3n : ∀ ch ∈ c3, ch ∉ nw)
    (hc1 : c1 ≠ []) (hc2 : c2 ≠ [])
    (hnotin : containsB old nw = false) :
    countOcc old (c0 ++ (old ++ (c1 ++ (old ++ (c2 ++ (old ++ c3)))))) = 3 ∧
    update_file [(old, nw)] true (c0 ++ (old ++ (c1 ++ (old ++ (c2 ++ (old ++ c3)))))) st =
      (c0 ++ (nw ++ (c1 ++ (nw ++ (c2 ++ (nw ++ c3))))),
       some (c0 ++ (old ++ (c1 ++ (old ++ (c2 ++ (old ++ c3)))))),
       ⟨st.files_updated + 1, st.replacements + 3, st.files_backed_up + 1⟩) ∧
    countOcc old (c0 ++ (nw ++ (c1 ++ (nw ++ (c2 ++ (nw ++ c3)))))) = 0 ∧
    countOcc nw (c0 ++ (nw ++ (c1 ++ (nw ++ (c2 ++ (nw ++ c3)))))) = 3 := by
  have hcount := countOcc_three_blocks old c0 c1 c2 c3 hold h0o h1o h2o h3o
  have hrep := replaceAll_three_blocks old nw c0 c1 c2 c3 hold h0o h1o h2o h3o
  have hcont : containsB old (c0 ++ (old ++ (c1 ++ (old ++ (c2 ++ (old ++ c3)))))) = true := by
    refine (containsB_iff _ _).mpr ⟨c0, c1 ++ (old ++ (c2 ++ (old ++ c3))), ?_⟩
    simp [List.append_assoc]
  have happ : applyMappings [(old, nw)]
      (c0 ++ (old ++ (c1 ++ (old ++ (c2 ++ (old ++ c3)))))) =
      (c0 ++ (nw ++ (c1 ++ (nw ++ (c2 ++ (nw ++ c3))))), 3) := by
    unfold applyMappings
    rw [List.foldl_cons, List.foldl_nil]
    rw [if_pos hcont, hrep, hcount]
  refine ⟨hcount, ?_,
    countOcc_old_result_zero old nw c0 c1 c2 c3 hold h0o h1o h2o h3o hc1 hc2 hnotin,
    countOcc_new_result_three nw c0 c1 c2 c3 hnew h0n h1n h2n h3n⟩
  unfold update_file
  rw [happ]
  norm_num

/-- A second distinct valid webhook URL (different id, `'b'` token). -/
def exNewUrl : Str :=
  "https://discord.com/api/webhooks/98765432109876543/".toList ++ List.replicate 50 'b'

/-- A file content that contains `exGoodUrl` exactly three times but already
contains `exNewUrl` once (the three old occurrences separated by newlines). -/
def exContent3 : Str :=
  exNewUrl ++ '\n' :: (exGoodUrl ++ '\n' :: (exGoodUrl ++ '\n' :: exGoodUrl))

set_option maxRecDepth 40000 in
/-- **C2 (counterexample).** The unrestricted claim is false: for the valid
webhook URLs `exGoodUrl` (OLD) and `exNewUrl` (NEW), `exContent3` contains OLD
exactly three times, yet rewriting it under `{OLD → NEW}` yields content
containing NEW four times (NEW already occurred once), not exactly three. -/
theorem C2_counterexample_preexisting_new :
    is_valid_webhook exGoodUrl = true ∧
    is_valid_webhook exNewUrl = true ∧
    exGoodUrl ≠ exNewUrl ∧
    countOcc exGoodUrl exContent3 = 3 ∧
    countOcc exNewUrl
      (update_file [(exGoodUrl, exNewUrl)] true exContent3 ⟨0, 0, 0⟩).1 = 4 := by
  refine ⟨by decide, by decide, by decide, by decide, by decide⟩

/-- **C2 (witness).** The amended rewrite theorem instantiated at a concrete
input: `old = "ab"`, `new = "c"`, fillers `"x"`, `"y"`, `"z"`, `""`. -/
theorem C2_amended_rewrite_witness :
    countOcc ['a', 'b'] (['x'] ++ (['a', 'b'] ++ (['y'] ++ (['a', 'b'] ++
      (['z'] ++ (['a', 'b'] ++ [])))))) = 3 ∧
    update_file [(['a', 'b'], ['c'])] true (['x'] ++ (['a', 'b'] ++ (['y'] ++
      (['a', 'b'] ++ (['z'] ++ (['a', 'b'] ++ [])))))) ⟨0, 0, 0⟩ =
      (['x'] ++ (['c'] ++ (['y'] ++ (['c'] ++ (['z'] ++ (['c'] ++ []))))),
       some (['x'] ++ (['a', 'b'] ++ (['y'] ++ (['a', 'b'] ++
         (['z'] ++ (['a', 'b'] ++ [])))))),
       ⟨1, 3, 1⟩) ∧
    countOcc ['a', 'b'] (['x'] ++ (['c'] ++ (['y'] ++ (['c'] ++
      (['z'] ++ (['c'] ++ [])))))) = 0 ∧
    countOcc ['c'] (['x'] ++ (['c'] ++ (['y'] ++ (['c'] ++
      (['z'] ++ (['c'] ++ [])))))) = 3 :=
  C2_amended_rewrite ['a', 'b'] ['c'] ['x'] ['y'] ['z'] [] ⟨0, 0, 0⟩
    (by decide) (by decide) (by decide) (by decide) (by decide) (by decide)
    (by decide) (by decide) (by decide) (by decide) (by decide) (by decide)
    (by decide)

/-- Add to a Python `set`, modelled as a duplicate-free list in insertion
order: no effect when the element is already present. -/
def addSet (s : List Str) (u : Str) : List Str :=
  if u ∈ s then s else s ++ [u]

/-- `defaultdict(set)`: add `v` to the set at key `k` on an association list. -/
def addToSetMap : List (Str × List Str) → Str → Str → List (Str × List Str)
  | [], k, v => [(k, [v])]
  | (k', vs) :: rest, k, v =>
    if k' = k then (k', addSet vs v) :: rest
    else (k', vs) :: addToSetMap rest k v

/-- `defaultdict(list)`: append `v` to the list at key `k` on an association
list (never deduplicated). -/
def appendOcc : List (Str × List (Str × Str)) → Str → Str × Str →
    List (Str × List (Str × Str))
  | [], k, v => [(k, [v])]
  | (k', vs) :: rest, k, v =>
    if k' = k then (k', vs ++ [v]) :: rest
    else (k', vs) :: appendOcc rest k v

/-- Scanner state: the two aggregation indexes and the counters of
`EnhancedScanner` (source lines 73–82). -/
structure ScanState where
  webhooks_by_resource : List (Str × List Str)
  file_occurrences : List (Str × List (Str × Str))
  webhooks_found : Nat
  resources_found : List Str
  files_with_webhooks : Nat
deriving DecidableEq

/-- The scanner's empty initial state. -/
def ScanState.init : ScanState := ⟨[], [], 0, [], 0⟩

/-- One candidate hit inside `_scan_file`'s match loops (source lines
139–156): validate, then add the URL to the resource's set, append a
`(path, resource)` occurrence, bump `webhooks_found` and `resources_found`,
and mark that the file had a hit. -/
def processHit (pathStr res : Str) (st : ScanState × Bool) (u : Str) :
    ScanState × Bool :=
  if is_valid_webhook u then
    (⟨addToSetMap st.1.webhooks_by_resource res u,
      appendOcc st.1.file_occurrences u (pathStr, res),
      st.1.webhooks_found + 1,
      addSet st.1.resources_found res,
      st.1.files_with_webhooks⟩, true)
  else st

/-- `EnhancedScanner._scan_file` (source lines 130–162).  The two regex
families are modelled abstractly: `cands` lists the candidate URLs produced by
the direct URL pattern followed by each key-value pattern, in match order —
one entry per pattern match (so a single textual occurrence matched by several
patterns contributes several candidates, as in the source's two loops).  The
resource is attributed via `_extract_resource_name` on the file's relative
path segments. -/
def scan_file (pathStr : Str) (relParts : List Str) (cands : List Str)
    (st : ScanState) : ScanState :=
  let r := cands.foldl (processHit pathStr (extract_resource_name relParts)) (st, false)
  if r.2 then { r.1 with files_with_webhooks := r.1.files_with_webhooks + 1 }
  else r.1

/-- **C3 (amended).** Scanning two files attributed to the same resource, each
contributing exactly one candidate hit of the same valid webhook URL, yields
exactly one entry for the URL in that resource's URL set (set deduplication),
and exactly one `(file path, resource)` occurrence entry per hit — hence
exactly two entries, one per file, when each file's occurrence is matched by
exactly one extraction pattern.  (One entry is appended per pattern match, not
per textual occurrence, so the occurrence list grows beyond two when several
patterns match the same occurrence.) -/
theorem C3_amended_aggregation (u p1 p2 : Str) (parts1 parts2 : List Str)
    (hv : is_valid_webhook u = true)
    (hres : extract_resource_name parts2 = extract_resource_name parts1) :
    (scan_file p2 parts2 [u] (scan_file p1 parts1 [u] ScanState.init)).webhooks_by_resource
      = [(extract_resource_name parts1, [u])] ∧
    (scan_file p2 parts2 [u] (scan_file p1 parts1 [u] ScanState.init)).file_occurrences
      = [(u, [(p1, extract_resource_name parts1), (p2, extract_resource_name parts1)])] := by
  constructor <;>
    simp [scan_file, processHit, addToSetMap, appendOcc, addSet, hv, hres, ScanState.init]

/-- Relative path segments of the first example file. -/
def exParts1 : List Str := ["res1".toList, "a.lua".toList]

/-- Relative path segments of the second example file. -/
def exParts2 : List Str := ["res1".toList, "b.lua".toList]

set_option maxRecDepth 40000 in
/-- **C3 (counterexample).** The claim's "exactly two entries regardless of
which extraction pattern or patterns matched" is false on the code: the first
file's single textual occurrence is matched by two patterns (the source's
direct URL regex and its `webhook = "..."` value patterns both match such a
line), so `_scan_file` appends one occurrence entry per match: the occurrence
list has three entries for two files, while the URL set still has one. -/
theorem C3_counterexample_multi_pattern :
    (scan_file "/srv/res1/b.lua".toList exParts2 [exGoodUrl]
      (scan_file "/srv/res1/a.lua".toList exParts1 [exGoodUrl, exGoodUrl]
        ScanState.init)).webhooks_by_resource = [("res1".toList, [exGoodUrl])] ∧
    (scan_file "/srv/res1/b.lua".toList exParts2 [exGoodUrl]
      (scan_file "/srv/res1/a.lua".toList exParts1 [exGoodUrl, exGoodUrl]
        ScanState.init)).file_occurrences =
      [(exGoodUrl,
        [("/srv/res1/a.lua".toList, "res1".toList),
         ("/srv/res1/a.lua".toList, "res1".toList),
         ("/srv/res1/b.lua".toList, "res1".toList)])] := by
  refine ⟨by decide, by decide⟩

/-- **C3 (witness).** The amended aggregation theorem instantiated at the two
example files and the concrete valid URL. -/
theorem C3_amended_aggregation_witness :
    (scan_file "/srv/res1/b.lua".toList exParts2 [exGoodUrl]
      (scan_file "/srv/res1/a.lua".toList exParts1 [exGoodUrl]
        ScanState.init)).webhooks_by_resource
      = [(extract_resource_name exParts1, [exGoodUrl])] ∧
    (scan_file "/srv/res1/b.lua".toList exParts2 [exGoodUrl]
      (scan_file "/srv/res1/a.lua".toList exParts1 [exGoodUrl]
        ScanState.init)).file_occurrences
      = [(exGoodUrl,
          [("/srv/res1/a.lua".toList, extract_resource_name exParts1),
           ("/srv/res1/b.lua".toList, extract_resource_name exParts1)])] :=
  C3_amended_aggregation exGoodUrl "/srv/res1/a.lua".toList "/srv/res1/b.lua".toList
    exParts1 exParts2 (by decide) (by decide)

/-- Decimal digit to character. -/
def digitChar : Nat → Char
  | 0 => '0' | 1 => '1' | 2 => '2' | 3 => '3' | 4 => '4'
  | 5 => '5' | 6 => '6' | 7 => '7' | 8 => '8' | 9 => '9'
  | _ => '?'

/-- Fuel-driven decimal rendering of a natural number. -/
def natToStrF : Nat → Nat → Str
  | 0, _ => []
  | f + 1, n => if n < 10 then [digitChar n] else natToStrF f (n / 10) ++ [digitChar (n % 10)]

/-- Python `str(n)` for a natural number. -/
def natToStr (n : Nat) : Str := natToStrF (n + 1) n

theorem natToStrF_congr : ∀ f g n, n < f → n < g → natToStrF f n = natToStrF g n := by
  intro f
  induction f with
  | zero => intro g n hf; omega
  | succ f ih =>
    intro g n hf hg
    cases g with
    | zero => omega
    | succ g =>
      show (if n < 10 then [digitChar n] else natToStrF f (n / 10) ++ [digitChar (n % 10)]) =
        (if n < 10 then [digitChar n] else natToStrF g (n / 10) ++ [digitChar (n % 10)])
      by_cases hn : n < 10
      · rw [if_pos hn, if_pos hn]
      · rw [if_neg hn, if_neg hn, ih g (n / 10) (by omega) (by omega)]

theorem natToStr_unfold (n : Nat) :
    natToStr n = if n < 10 then [digitChar n] else natToStr (n / 10) ++ [digitChar (n % 10)] := by
  show (if n < 10 then [digitChar n] else natToStrF n (n / 10) ++ [digitChar (n % 10)]) = _
  by_cases hn : n < 10
  · rw [if_pos hn, if_pos hn]
  · rw [if_neg hn, if_neg hn, natToStrF_congr n (n / 10 + 1) (n / 10) (by omega) (by omega)]
    rfl

theorem natToStr_ne_nil (n : Nat) : natToStr n ≠ [] := by
  rw [natToStr_unfold]
  by_cases hn : n < 10
  · rw [if_pos hn]; exact List.cons_ne_nil _ _
  · rw [if_neg hn]
    intro h
    exact absurd (List.append_eq_nil.mp h).2 (List.cons_ne_nil _ _)

theorem digitChar_inj_fin : ∀ a b : Fin 10, digitChar a.val = digitChar b.val → a = b := by
  decide

theorem digitChar_inj (a b : Nat) (ha : a < 10) (hb : b < 10)
    (h : digitChar a = digitChar b) : a = b :=
  congrArg Fin.val (digitChar_inj_fin ⟨a, ha⟩ ⟨b, hb⟩ h)

theorem natToStr_inj : ∀ n m, natToStr n = natToStr m → n = m := by
  intro n
  induction n using Nat.strong_induction_on with
  | _ n ih =>
    intro m h
    rw [natToStr_unfold n, natToStr_unfold m] at h
    by_cases hn : n < 10 <;> by_cases hm : m < 10
    · rw [if_pos hn, if_pos hm] at h
      exact digitChar_inj n m hn hm (List.cons.injEq _ _ _ _ ▸ h).1
    · rw [if_pos hn, if_neg hm] at h
      have hlen := congrArg List.length h
      simp only [List.length_cons, List.length_nil, List.length_append] at hlen
      have := List.length_pos.mpr (natToStr_ne_nil (m / 10))
      omega
    · rw [if_neg hn, if_pos hm] at h
      have hlen := congrArg List.length h
      simp only [List.length_cons, List.length_nil, List.length_append] at hlen
      have := List.length_pos.mpr (natToStr_ne_nil (n / 10))
      omega
    · rw [if_neg hn, if_neg hm] at h
      have h2 : natToStr (n / 10) = natToStr (m / 10) ∧
          digitChar (n % 10) = digitChar (m % 10) := by
        constructor
        · exact (List.append_inj h (by
            have hlen := congrArg List.length h
            simp only [List.length_append, List.length_cons, List.length_nil] at hlen
            omega)).1
        · have := (List.append_inj h (by
            have hlen := congrArg List.length h
            simp only [List.length_append, List.length_cons, List.length_nil] at hlen
            omega)).2
          exact (List.cons.injEq _ _ _ _ ▸ this).1
      have hdiv : n / 10 = m / 10 := ih (n / 10) (by omega) (m / 10) h2.1
      have hmod : n % 10 = m % 10 :=
        digitChar_inj _ _ (Nat.mod_lt n (by omega)) (Nat.mod_lt m (by omega)) h2.2
      omega

/-- Word characters for the `\b` boundary of Python regexes (`[A-Za-z0-9_]`). -/
def isWordChar (c : Char) : Bool := c.isAlphanum || c == '_'

/-- `\b` holds at a position whose neighbour is absent or a non-word char. -/
def boundaryOk : Option Char → Bool
  | none => true
  | some c => !isWordChar c

/-- Fuel-driven `re.sub(r'\b<w>\b', repl, s)` for a literal word `w`:
leftmost non-overlapping matches with word boundaries on both sides;
`prev` is the character preceding the scan position. -/
def replaceWordBF : Nat → Str → Str → Option Char → Str → Str
  | 0, _, _, _, s => s
  | _ + 1, [], _, _, s => s
  | _ + 1, _ :: _, _, _, [] => []
  | f + 1, w0 :: wr, repl, prev, c :: rest =>
    if boundaryOk prev && isPrefB (w0 :: wr) (c :: rest) &&
        boundaryOk ((c :: rest).drop (w0 :: wr).length).head? then
      repl ++ replaceWordBF f (w0 :: wr) repl ((w0 :: wr).getLast? )
        ((c :: rest).drop (w0 :: wr).length)
    else c :: replaceWordBF f (w0 :: wr) repl (some c) rest

/-- Word-boundary substitution (Python `re.sub(r'\b<w>\b', repl, s)`). -/
def replaceWordB (w repl s : Str) : Str := replaceWordBF (s.length + 1) w repl none s

/-- Whitespace or underscore (the class `[\s_]`, ASCII model). -/
def isWsU (c : Char) : Bool := c.isWhitespace || c == '_'

/-- `re.sub(r'[\s_]+', '-', s)`: each maximal whitespace/underscore run
becomes a single hyphen. -/
def collapseWsUnder : Bool → Str → Str
  | _, [] => []
  | inRun, c :: rest =>
    if isWsU c then
      if inRun then collapseWsUnder true rest else '-' :: collapseWsUnder true rest
    else c :: collapseWsUnder false rest

/-- `re.sub(r'-+', '-', s)`: collapse hyphen runs. -/
def collapseHyphens : Bool → Str → Str
  | _, [] => []
  | inRun, c :: rest =>
    if c == '-' then
      if inRun then collapseHyphens true rest else '-' :: collapseHyphens true rest
    else c :: collapseHyphens false rest

/-- Python `s.strip('-')`. -/
def stripHyphens (s : Str) : Str :=
  ((s.dropWhile fun c => c == '-').reverse.dropWhile fun c => c == '-').reverse

/-- `WebhookCreator._sanitize_name` (source lines 287–302): lowercase,
substitute the reserved words `discord`/`clyde`, collapse whitespace and
underscores to hyphens, drop characters outside `[a-z0-9-]`, collapse and trim
hyphens, truncate to 100 characters, with fallback `'resource-logs'`. -/
def sanitize_name (name : Str) : Str :=
  let n1 := replaceWordB "discord".toList "disc".toList (lowerStr name)
  let n2 := replaceWordB "clyde".toList "assistant".toList n1
  let n3 := collapseWsUnder false n2
  let n4 := n3.filter fun c => c.isLower || c.isDigit || c == '-'
  let n5 := stripHyphens (collapseHyphens false n4)
  if n5 = [] then "resource-logs".toList else n5.take 100

/-- A text channel of the guild: display name, owning category, identifier. -/
structure Chan where
  name : Str
  catId : Nat
  cid : Nat
deriving DecidableEq

/-- The remote guild: existing category identifiers, text channels, and the
identifier the next created channel receives. -/
structure Guild where
  categories : List Nat
  channels : List Chan
  nextId : Nat
deriving DecidableEq

/-- An entry of `WebhookCreator.created_channels` (source lines 263–268). -/
structure ChanRecord where
  cname : Str
  cid : Nat
  resource : Str
  webhook_count : Nat
deriving DecidableEq

/-- The provisioner's state: the guild plus `created_channels`,
`webhook_mappings` and a count of channel-creation calls. -/
structure ProvState where
  guild : Guild
  created_channels : List ChanRecord
  webhook_mappings : List (Str × Str)
  createdCount : Nat
deriving DecidableEq

/-- The remote platform as an oracle: whether `create_text_channel` raises for
a resource's call, whether `create_webhook` raises for a (webhook name, old
URL) call, and the URL of a successfully created webhook. -/
structure RemoteOracle where
  chanFail : Str → Bool
  hookFail : Str → Str → Bool
  hookUrl : Str → Str → Str

/-- Python dict assignment `m[k] = v` on an association list: overwrite in
place or append. -/
def setAssoc (m : List (Str × Str)) (k v : Str) : List (Str × Str) :=
  if k ∈ m.map Prod.fst then m.map fun p => if p.1 = k then (k, v) else p
  else m ++ [(k, v)]

/-- `discord.utils.get(text_channels, name=nm, category_id=catId)`: the first
channel matching both attributes. -/
def findChan (chs : List Chan) (nm : Str) (catId : Nat) : Option Chan :=
  chs.find? fun ch => decide (ch.name = nm ∧ ch.catId = catId)

/-- The name `create_webhook` is called with (source line 271): the resource
name alone when it owns one URL, else `resource-idx` with a 1-based index. -/
def whName (resource : Str) (total idx : Nat) : Str :=
  if total = 1 then resource else resource ++ '-' :: natToStr idx

/-- Python `sorted` via insertion sort with a boolean `≤`. -/
def insertLe {α : Type} (le : α → α → Bool) (x : α) : List α → List α
  | [] => [x]
  | y :: ys => if le x y then x :: y :: ys else y :: insertLe le x ys

/-- Python `sorted`. -/
def sortLe {α : Type} (le : α → α → Bool) : List α → List α
  | [] => []
  | x :: xs => insertLe le x (sortLe le xs)

/-- Python string `<=` (lexicographic by code point). -/
def lexLe : Str → Str → Bool
  | [], _ => true
  | _ :: _, [] => false
  | a :: as, b :: bs => if a = b then lexLe as bs else decide (a < b)

/-- `sorted(old_webhooks)`. -/
def sortUrls (us : List Str) : List Str := sortLe lexLe us

/-- `sorted(webhooks_by_resource.items())` (keys are distinct, so ordering by
key decides). -/
def sortByKey (m : List (Str × List Str)) : List (Str × List Str) :=
  sortLe (fun a b => lexLe a.1 b.1) m

/-- The webhook-creation loop of `create_all` (source lines 270–274): one
`create_webhook` per URL of the sorted set, recording `old → new` in the
mappings; a raise abandons the remainder of this resource's loop (the outer
`except` then continues with the next resource), keeping the mappings already
recorded. -/
def createHooks (o : RemoteOracle) (resource : Str) (total : Nat) :
    List Str → Nat → List (Str × Str) → List (Str × Str)
  | [], _, maps => maps
  | u :: rest, idx, maps =>
    if o.hookFail (whName resource total idx) u then maps
    else createHooks o resource total rest (idx + 1)
      (setAssoc maps u (o.hookUrl (whName resource total idx) u))

/-- One iteration of the `create_all` loop body (source lines 241–283), after
the category lookup succeeded: reuse the first channel with the sanitized name
inside the category, else create one (a creation failure abandons the resource
with nothing recorded); append the channel record; then run the webhook loop. -/
def provisionStep (o : RemoteOracle) (catId : Nat) (st : ProvState)
    (resource : Str) (urls : List Str) : ProvState :=
  match findChan st.guild.channels (sanitize_name (resource ++ "-logs".toList)) catId with
  | some ch =>
    { st with
      created_channels := st.created_channels ++
        [⟨sanitize_name (resource ++ "-logs".toList), ch.cid, resource, urls.length⟩],
      webhook_mappings := createHooks o resource urls.length urls 1 st.webhook_mappings }
  | none =>
    if o.chanFail resource then st
    else
      { guild := { st.guild with
          channels := st.guild.channels ++
            [⟨sanitize_name (resource ++ "-logs".toList), catId, st.guild.nextId⟩],
          nextId := st.guild.nextId + 1 },
        created_channels := st.created_channels ++
          [⟨sanitize_name (resource ++ "-logs".toList), st.guild.nextId, resource, urls.length⟩],
        webhook_mappings := createHooks o resource urls.length urls 1 st.webhook_mappings,
        createdCount := st.createdCount + 1 }

/-- The `create_all` loop over sorted resources: each iteration looks up the
category and aborts the whole run with `False` if it is missing; otherwise the
iteration's remote failures are non-fatal and the loop continues. -/
def create_all_go (o : RemoteOracle) (catId : Nat) :
    List (Str × List Str) → ProvState → Bool × ProvState
  | [], st => (true, st)
  | (resource, urls) :: rest, st =>
    if catId ∈ st.guild.categories then
      create_all_go o catId rest (provisionStep o catId st resource (sortUrls urls))
    else (false, st)

/-- Fresh provisioner state over a guild. -/
def ProvState.init (g : Guild) : ProvState := ⟨g, [], [], 0⟩

/-- `WebhookCreator.create_all` (source lines 235–285). -/
def create_all (o : RemoteOracle) (catId : Nat) (g : Guild)
    (index : List (Str × List Str)) : Bool × ProvState :=
  create_all_go o catId (sortByKey index) (ProvState.init g)

theorem length_insertLe {α : Type} (le : α → α → Bool) (x : α) :
    ∀ l, (insertLe le x l).length = l.length + 1 := by
  intro l
  induction l with
  | nil => rfl
  | cons y ys ih =>
    unfold insertLe
    by_cases h : le x y = true
    · rw [if_pos h]; rfl
    · rw [if_neg h]; simp [ih]

theorem length_sortLe {α : Type} (le : α → α → Bool) :
    ∀ l : List α, (sortLe le l).length = l.length := by
  intro l
  induction l with
  | nil => rfl
  | cons x xs ih => unfold sortLe; rw [length_insertLe, ih]; rfl

theorem mem_insertLe {α : Type} (le : α → α → Bool) (x y : α) :
    ∀ l, y ∈ insertLe le x l ↔ y = x ∨ y ∈ l := by
  intro l
  induction l with
  | nil => simp [insertLe]
  | cons z zs ih =>
    unfold insertLe
    by_cases h : le x z = true
    · rw [if_pos h]; simp
    · rw [if_neg h]; simp [ih]; tauto

theorem mem_sortLe {α : Type} (le : α → α → Bool) (y : α) :
    ∀ l, y ∈ sortLe le l ↔ y ∈ l := by
  intro l
  induction l with
  | nil => simp [sortLe]
  | cons x xs ih => unfold sortLe; rw [mem_insertLe]; simp [ih]

theorem provisionStep_categories (o : RemoteOracle) (catId : Nat) (st : ProvState)
    (r : Str) (urls : List Str) :
    (provisionStep o catId st r urls).guild.categories = st.guild.categories := by
  unfold provisionStep
  split
  · rfl
  · split <;> rfl

theorem provisionStep_channels_ext (o : RemoteOracle) (catId : Nat) (st : ProvState)
    (r : Str) (urls : List Str) :
    ∃ ext, (provisionStep o catId st r urls).guild.channels = st.guild.channels ++ ext := by
  unfold provisionStep
  split
  · exact ⟨[], by simp⟩
  · split
    · exact ⟨[], by simp⟩
    · exact ⟨_, rfl⟩

theorem provisionStep_found (o : RemoteOracle) (catId : Nat) (st : ProvState)
    (r : Str) (urls : List Str) (ch : Chan)
    (hfind : findChan st.guild.channels (sanitize_name (r ++ "-logs".toList)) catId = some ch) :
    provisionStep o catId st r urls =
      { st with
        created_channels := st.created_channels ++
          [⟨sanitize_name (r ++ "-logs".toList), ch.cid, r, urls.length⟩],
        webhook_mappings := createHooks o r urls.length urls 1 st.webhook_mappings } := by
  unfold provisionStep
  rw [hfind]

theorem provisionStep_chanFail (o : RemoteOracle) (catId : Nat) (st : ProvState)
    (r : Str) (urls : List Str)
    (hfind : findChan st.guild.channels (sanitize_name (r ++ "-logs".toList)) catId = none)
    (hfail : o.chanFail r = true) :
    provisionStep o catId st r urls = st := by
  unfold provisionStep
  rw [hfind]
  simp [hfail]

theorem provisionStep_present (o : RemoteOracle) (catId : Nat) (st : ProvState)
    (r : Str) (urls : List Str) (hcf : o.chanFail r = false) :
    ∃ ch ∈ (provisionStep o catId st r urls).guild.channels,
      ch.name = sanitize_name (r ++ "-logs".toList) ∧ ch.catId = catId := by
  unfold provisionStep
  cases hf : findChan st.guild.channels (sanitize_name (r ++ "-logs".toList)) catId with
  | some ch =>
    refine ⟨ch, List.mem_of_find?_eq_some hf, ?_⟩
    have := List.find?_some hf
    simpa using this
  | none =>
    rw [show (o.chanFail r) = false from hcf]
    exact ⟨⟨sanitize_name (r ++ "-logs".toList), catId, st.guild.nextId⟩,
      by simp, rfl, rfl⟩

theorem create_all_go_categories (o : RemoteOracle) (catId : Nat) :
    ∀ (idx : List (Str × List Str)) (st : ProvState),
      (create_all_go o catId idx st).2.guild.categories = st.guild.categories := by
  intro idx
  induction idx with
  | nil => intro st; rfl
  | cons p rest ih =>
    intro st
    cases p with
    | mk r urls =>
      unfold create_all_go
      by_cases hc : catId ∈ st.guild.categories
      · rw [if_pos hc, ih, provisionStep_categories]
      · rw [if_neg hc]

theorem create_all_go_channels_mono (o : RemoteOracle) (catId : Nat) :
    ∀ (idx : List (Str × List Str)) (st : ProvState),
      ∃ ext, (create_all_go o catId idx st).2.guild.channels = st.guild.channels ++ ext := by
  intro idx
  induction idx with
  | nil => intro st; exact ⟨[], by simp [create_all_go]⟩
  | cons p rest ih =>
    intro st
    cases p with
    | mk r urls =>
      unfold create_all_go
      by_cases hc : catId ∈ st.guild.categories
      · rw [if_pos hc]
        obtain ⟨e1, he1⟩ := ih (provisionStep o catId st r (sortUrls urls))
        obtain ⟨e2, he2⟩ := provisionStep_channels_ext o catId st r (sortUrls urls)
        exact ⟨e2 ++ e1, by rw [he1, he2, List.append_assoc]⟩
      · rw [if_neg hc]; exact ⟨[], by simp⟩

theorem create_all_go_true (o : RemoteOracle) (catId : Nat) :
    ∀ (idx : List (Str × List Str)) (st : ProvState),
      catId ∈ st.guild.categories → (create_all_go o catId idx st).1 = true := by
  intro idx
  induction idx with
  | nil => intro st _; rfl
  | cons p rest ih =>
    intro st hc
    cases p with
    | mk r urls =>
      unfold create_all_go
      rw [if_pos hc]
      exact ih _ (by rw [provisionStep_categories]; exact hc)

theorem create_all_go_all_present (o : RemoteOracle) (catId : Nat)
    (hcf : ∀ r, o.chanFail r = false) :
    ∀ (idx : List (Str × List Str)) (st : ProvState),
      catId ∈ st.guild.categories →
      ∀ p ∈ idx, ∃ ch ∈ (create_all_go o catId idx st).2.guild.channels,
        ch.name = sanitize_name (p.1 ++ "-logs".toList) ∧ ch.catId = catId := by
  intro idx
  induction idx with
  | nil => intro st _ p hp; exact absurd hp (List.not_mem_nil p)
  | cons q rest ih =>
    intro st hc p hp
    cases q with
    | mk r urls =>
      unfold create_all_go
      rw [if_pos hc]
      rcases List.mem_cons.mp hp with rfl | hp2
      · obtain ⟨ch, hch, hprops⟩ := provisionStep_present o catId st r (sortUrls urls) (hcf r)
        obtain ⟨ext, hext⟩ := create_all_go_channels_mono o catId rest
          (provisionStep o catId st r (sortUrls urls))
        exact ⟨ch, by rw [hext]; exact List.mem_append_left _ hch, hprops⟩
      · exact ih (provisionStep o catId st r (sortUrls urls))
          (by rw [provisionStep_categories]; exact hc) p hp2

theorem create_all_go_count_zero (o : RemoteOracle) (catId : Nat) :
    ∀ (idx : List (Str × List Str)) (st : ProvState),
      (∀ p ∈ idx, ∃ ch ∈ st.guild.channels,
        ch.name = sanitize_name (p.1 ++ "-logs".toList) ∧ ch.catId = catId) →
      (create_all_go o catId idx st).2.createdCount = st.createdCount := by
  intro idx
  induction idx with
  | nil => intro st _; rfl
  | cons q rest ih =>
    intro st hall
    cases q with
    | mk r urls =>
      unfold create_all_go
      by_cases hc : catId ∈ st.guild.categories
      · rw [if_pos hc]
        obtain ⟨ch, hch, hname, hcat⟩ := hall (r, urls) (by simp)
        have hfind : ∃ ch', findChan st.guild.channels
            (sanitize_name (r ++ "-logs".toList)) catId = some ch' := by
          have : (findChan st.guild.channels
              (sanitize_name (r ++ "-logs".toList)) catId).isSome = true := by
            unfold findChan
            rw [List.find?_isSome]
            exact ⟨ch, hch, by simp [hname, hcat]⟩
          exact Option.isSome_iff_exists.mp this
        obtain ⟨ch', hch'⟩ := hfind
        rw [provisionStep_found o catId st r (sortUrls urls) ch' hch']
        exact ih _ fun p hp => hall p (List.mem_cons_of_mem _ hp)
      · rw [if_neg hc]

/-- **C5.** Channel reuse is idempotent: (a) if every resource's sanitized
channel name already names a channel inside the target category, a
provisioning run performs zero channel-creation calls; (b) after a first run
whose channel creations never fail over a guild with an existing target
category, a second run over the same resource-to-URL index (under any oracle)
creates zero new channels — every channel is reused. -/
theorem C5_idempotent_channel_reuse :
    (∀ (o : RemoteOracle) (catId : Nat) (g : Guild) (index : List (Str × List Str)),
      (∀ p ∈ index, ∃ ch ∈ g.channels,
        ch.name = sanitize_name (p.1 ++ "-logs".toList) ∧ ch.catId = catId) →
      (create_all o catId g index).2.createdCount = 0) ∧
    (∀ (o o' : RemoteOracle) (catId : Nat) (g : Guild) (index : List (Str × List Str)),
      catId ∈ g.categories → (∀ r, o.chanFail r = false) →
      (create_all o' catId (create_all o catId g index).2.guild index).2.createdCount = 0) := by
  have part1 : ∀ (o : RemoteOracle) (catId : Nat) (g : Guild)
      (index : List (Str × List Str)),
      (∀ p ∈ index, ∃ ch ∈ g.channels,
        ch.name = sanitize_name (p.1 ++ "-logs".toList) ∧ ch.catId = catId) →
      (create_all o catId g index).2.createdCount = 0 := by
    intro o catId g index hall
    unfold create_all
    exact create_all_go_count_zero o catId (sortByKey index) (ProvState.init g)
      fun p hp => hall p ((mem_sortLe _ p index).mp hp)
  refine ⟨part1, ?_⟩
  intro o o' catId g index hcat hcf
  apply part1
  intro p hp
  exact create_all_go_all_present o catId hcf (sortByKey index) (ProvState.init g)
    hcat p ((mem_sortLe _ p index).mpr hp)

/-- **C5 (witness).** Part (b) of the reuse theorem at a concrete input: a
one-resource index over a guild with the category and no channels; the first
run creates the channel, the second creates none. -/
theorem C5_idempotent_channel_reuse_witness :
    (create_all ⟨fun _ => false, fun _ _ => false, fun _ u => 'N' :: u⟩ 7
      (create_all ⟨fun _ => false, fun _ _ => false, fun _ u => 'N' :: u⟩ 7
        ⟨[7], [], 10⟩ [("a".toList, [exGoodUrl])]).2.guild
      [("a".toList, [exGoodUrl])]).2.createdCount = 0 :=
  C5_idempotent_channel_reuse.2
    ⟨fun _ => false, fun _ _ => false, fun _ u => 'N' :: u⟩
    ⟨fun _ => false, fun _ _ => false, fun _ u => 'N' :: u⟩
    7 ⟨[7], [], 10⟩ [("a".toList, [exGoodUrl])] (by decide) (fun _ => rfl)

/-- **C6.** If the target category does not exist when provisioning runs (the
pipeline only invokes it on a nonempty index), `create_all` aborts immediately
with `False` and the state is untouched: no channel is created, no record and
no mapping is added for any resource. -/
theorem C6_missing_category_aborts (o : RemoteOracle) (catId : Nat) (g : Guild)
    (index : List (Str × List Str)) (hcat : catId ∉ g.categories) (hne : index ≠ []) :
    create_all o catId g index = (false, ProvState.init g) := by
  unfold create_all
  have hlen := length_sortLe (fun a b => lexLe a.1 b.1) index
  have hsne : sortByKey index ≠ [] := by
    intro h
    unfold sortByKey at h
    rw [h] at hlen
    exact hne (List.length_eq_zero.mp hlen.symm)
  obtain ⟨p, rest, heq⟩ := List.exists_cons_of_ne_nil hsne
  rw [heq]
  cases p with
  | mk r urls =>
    unfold create_all_go
    rw [if_neg (show catId ∉ (ProvState.init g).guild.categories from hcat)]

/-- **C6 (witness).** The abort theorem at a concrete input: category `9`
absent from a guild with only category `7`. -/
theorem C6_missing_category_aborts_witness :
    create_all ⟨fun _ => false, fun _ _ => false, fun _ u => u⟩ 9
      ⟨[7], [], 10⟩ [("a".toList, [exGoodUrl])] =
      (false, ProvState.init ⟨[7], [], 10⟩) :=
  C6_missing_category_aborts ⟨fun _ => false, fun _ _ => false, fun _ u => u⟩ 9
    ⟨[7], [], 10⟩ [("a".toList, [exGoodUrl])] (by decide) (by decide)

/-- **C7 (amended).** Per-resource remote failures are non-fatal, but the
effects already performed stay recorded: (i) a failure at channel creation
abandons the resource with no record, no mapping and no guild change; (ii) a
failure at the `j`-th endpoint creation stops that resource's webhook loop,
keeping exactly the mappings recorded before it; (iii) with the category
present the run always completes (`True`) — every remaining resource is still
processed; (iv) once a channel is obtained (reused here), the channel record
is appended even if every endpoint creation for the resource then fails. -/
theorem C7_amended_partial_effects :
    (∀ (o : RemoteOracle) (catId : Nat) (st : ProvState) (r : Str) (urls : List Str),
      findChan st.guild.channels (sanitize_name (r ++ "-logs".toList)) catId = none →
      o.chanFail r = true →
      provisionStep o catId st r urls = st) ∧
    (∀ (o : RemoteOracle) (r : Str) (total : Nat) (pre : List Str) (u : Str)
      (post : List Str) (idx : Nat) (maps : List (Str × Str)),
      o.hookFail (whName r total (idx + pre.length)) u = true →
      createHooks o r total (pre ++ u :: post) idx maps =
        createHooks o r total pre idx maps) ∧
    (∀ (o : RemoteOracle) (catId : Nat) (g : Guild) (index : List (Str × List Str)),
      catId ∈ g.categories → (create_all o catId g index).1 = true) ∧
    (∀ (o : RemoteOracle) (catId : Nat) (st : ProvState) (r : Str) (urls : List Str)
      (ch : Chan),
      findChan st.guild.channels (sanitize_name (r ++ "-logs".toList)) catId = some ch →
      provisionStep o catId st r urls =
        { st with
          created_channels := st.created_channels ++
            [⟨sanitize_name (r ++ "-logs".toList), ch.cid, r, urls.length⟩],
          webhook_mappings := createHooks o r urls.length urls 1 st.webhook_mappings }) := by
  refine ⟨provisionStep_chanFail, ?_, ?_, provisionStep_found⟩
  · intro o r total pre
    induction pre with
    | nil =>
      intro u post idx maps hfail
      rw [List.nil_append]
      unfold createHooks
      rw [if_pos (by simpa using hfail)]
    | cons v pre' ih =>
      intro u post idx maps hfail
      rw [List.cons_append]
      unfold createHooks
      by_cases hv : o.hookFail (whName r total idx) v = true
      · rw [if_pos hv, if_pos hv]
      · rw [if_neg hv, if_neg hv]
        exact ih u post (idx + 1) _
          (by rw [show idx + 1 + pre'.length = idx + (v :: pre').length by simp; omega]
              exact hfail)
  · intro o catId g index hcat
    exact create_all_go_true o catId (sortByKey index) (ProvState.init g) hcat

/-- Oracle for the C7 counterexample: channel creation always succeeds, but
every `create_webhook` call named `a` fails. -/
def exOracleC7 : RemoteOracle :=
  ⟨fun _ => false, fun nm _ => decide (nm = "a".toList), fun _ u => 'N' :: u⟩

/-- Guild for the C7 counterexample: category `7`, no channels yet. -/
def exGuildC7 : Guild := ⟨[7], [], 10⟩

/-- Index for the C7 counterexample: resources `a` and `b`, one URL each. -/
def exIndexC7 : List (Str × List Str) :=
  [("a".toList, [exGoodUrl]), ("b".toList, [exNewUrl])]

set_option maxRecDepth 40000 in
/-- **C7 (counterexample).** Resource `a`'s provisioning fails (its only
`create_webhook` call raises), yet the ProvisionedChannel list *does* gain a
record for `a` — the record is appended before the webhook loop — so the
claim's "no channel … recorded for it" is false; the run continues and
processes resource `b` normally (its channel record and mapping are added)
and reports success. -/
theorem C7_counterexample_record_kept :
    (create_all exOracleC7 7 exGuildC7 exIndexC7).1 = true ∧
    (create_all exOracleC7 7 exGuildC7 exIndexC7).2.created_channels =
      [⟨"a-logs".toList, 10, "a".toList, 1⟩, ⟨"b-logs".toList, 11, "b".toList, 1⟩] ∧
    (create_all exOracleC7 7 exGuildC7 exIndexC7).2.webhook_mappings =
      [(exNewUrl, 'N' :: exNewUrl)] := by
  refine ⟨by decide, by decide, by decide⟩

/-- The file names present in a directory (an association list name ↦ content). -/
def fsNames (fs : List (Str × Str)) : List Str := fs.map Prod.fst

/-- Look up a file's content by exact name (first entry wins). -/
def lookupFS (fs : List (Str × Str)) (n : Str) : Option Str :=
  (fs.find? fun p => decide (p.1 = n)).map Prod.snd

/-- The candidate name `f"{file_path.stem}_{counter}{file_path.suffix}"`. -/
def suffixName (stem sfx : Str) (k : Nat) : Str := stem ++ '_' :: (natToStr k ++ sfx)

/-- The `while backup_file.exists()` loop of `_update_file` (source lines
353–357): try the original basename, then `stem_1`, `stem_2`, … until a name
not present in the backup directory is found.  The suffixed candidates are
pairwise distinct, so among the first `existing.length + 1` of them one is
always free: the bounded search returns exactly the name the source's
unbounded loop does, and the fallback branch is unreachable (proved below). -/
def chooseBackupName (existing : List Str) (nm stem sfx : Str) : Str :=
  if nm ∈ existing then
    match (List.range' 1 (existing.length + 1)).find?
        (fun k => !decide (suffixName stem sfx k ∈ existing)) with
    | some k => suffixName stem sfx k
    | none => nm
  else nm

/-- Writing the backup: a fresh entry in the backup directory. -/
def writeBackup (fs : List (Str × Str)) (nm stem sfx content : Str) :
    List (Str × Str) :=
  (chooseBackupName (fsNames fs) nm stem sfx, content) :: fs

theorem suffixName_inj (stem sfx : Str) (k k' : Nat)
    (h : suffixName stem sfx k = suffixName stem sfx k') : k = k' := by
  unfold suffixName at h
  have h2 := List.append_cancel_left h
  have h3 : natToStr k ++ sfx = natToStr k' ++ sfx := (List.cons.injEq _ _ _ _ ▸ h2).2
  exact natToStr_inj k k' (List.append_cancel_right h3)

theorem chooseBackupName_fresh (existing : List Str) (nm stem sfx : Str) :
    chooseBackupName existing nm stem sfx ∉ existing := by
  unfold chooseBackupName
  by_cases h : nm ∈ existing
  · rw [if_pos h]
    cases hf : (List.range' 1 (existing.length + 1)).find?
        (fun k => !decide (suffixName stem sfx k ∈ existing)) with
    | some k =>
      have := List.find?_some hf
      simpa using this
    | none =>
      exfalso
      have hall : ∀ k ∈ List.range' 1 (existing.length + 1),
          suffixName stem sfx k ∈ existing := by
        intro k hk
        have := List.find?_eq_none.mp hf k hk
        simpa using this
      have hmapped : ((List.range' 1 (existing.length + 1)).map
          (suffixName stem sfx)).toFinset ⊆ existing.toFinset := by
        intro x hx
        rw [List.mem_toFinset] at hx ⊢
        obtain ⟨k, hk, rfl⟩ := List.mem_map.mp hx
        exact hall k hk
      have hnodup : ((List.range' 1 (existing.length + 1)).map
          (suffixName stem sfx)).Nodup :=
        List.Nodup.map (fun a b hab => suffixName_inj stem sfx a b hab)
          (List.nodup_range' 1 (existing.length + 1))
      have hcard1 : ((List.range' 1 (existing.length + 1)).map
          (suffixName stem sfx)).toFinset.card = existing.length + 1 := by
        rw [List.toFinset_card_of_nodup hnodup, List.length_map, List.length_range']
      have hcard2 : existing.toFinset.card ≤ existing.length :=
        List.toFinset_card_le existing
      have hle := Finset.card_le_card hmapped
      omega
  · rw [if_neg h]
    exact h

theorem lookupFS_writeBackup_other (fs : List (Str × Str)) (nm stem sfx content n : Str)
    (hne : n ≠ chooseBackupName (fsNames fs) nm stem sfx) :
    lookupFS (writeBackup fs nm stem sfx content) n = lookupFS fs n := by
  unfold writeBackup lookupFS
  rw [List.find?_cons_of_neg]
  simp only [decide_eq_true_eq]
  exact fun h => hne h.symm

/-- **C8.** Backup writes never collide: (a) the name chosen by the collision
loop is never one already present in the backup directory, so an earlier
backup of the same run is never overwritten; (b) a backup write changes no
entry other than the one being written; (c) writing two same-basename
originals in sequence stores them under two distinct backup paths, and both
contents remain retrievable afterwards. -/
theorem C8_backup_names_distinct :
    (∀ (fs : List (Str × Str)) (nm stem sfx : Str),
      chooseBackupName (fsNames fs) nm stem sfx ∉ fsNames fs) ∧
    (∀ (fs : List (Str × Str)) (nm stem sfx content n : Str),
      n ≠ chooseBackupName (fsNames fs) nm stem sfx →
      lookupFS (writeBackup fs nm stem sfx content) n = lookupFS fs n) ∧
    (∀ (fs : List (Str × Str)) (nm stem sfx c1 c2 : Str),
      chooseBackupName (fsNames (writeBackup fs nm stem sfx c1)) nm stem sfx ≠
        chooseBackupName (fsNames fs) nm stem sfx ∧
      lookupFS (writeBackup (writeBackup fs nm stem sfx c1) nm stem sfx c2)
        (chooseBackupName (fsNames fs) nm stem sfx) = some c1 ∧
      lookupFS (writeBackup (writeBackup fs nm stem sfx c1) nm stem sfx c2)
        (chooseBackupName (fsNames (writeBackup fs nm stem sfx c1)) nm stem sfx) =
        some c2) := by
  refine ⟨fun fs nm stem sfx => chooseBackupName_fresh _ nm stem sfx,
    lookupFS_writeBackup_other, ?_⟩
  intro fs nm stem sfx c1 c2
  have hfresh2 := chooseBackupName_fresh (fsNames (writeBackup fs nm stem sfx c1)) nm stem sfx
  have ht1mem : chooseBackupName (fsNames fs) nm stem sfx ∈
      fsNames (writeBackup fs nm stem sfx c1) := by
    unfold writeBackup fsNames
    simp
  have hne : chooseBackupName (fsNames (writeBackup fs nm stem sfx c1)) nm stem sfx ≠
      chooseBackupName (fsNames fs) nm stem sfx := by
    intro h
    rw [h] at hfresh2
    exact hfresh2 ht1mem
  refine ⟨hne, ?_, ?_⟩
  · rw [lookupFS_writeBackup_other _ nm stem sfx c2 _ (Ne.symm hne)]
    unfold writeBackup lookupFS
    rw [List.find?_cons_of_pos _ (by simp)]
    rfl
  · unfold writeBackup lookupFS
    rw [List.find?_cons_of_pos _ (by simp)]
    rfl

/-- Per-file I/O outcome oracle: whether the read, the backup write and the
in-place write succeed for a file (a `false` models the raise that the bare
`except` of `_update_file` swallows). -/
structure FileOracle where
  readOk : Bool
  backupOk : Bool
  writeOk : Bool

/-- The run state of the rewrite stage: the scanned tree, the run's backup
directory, and the counters. -/
structure RunState where
  main : List (Str × Str)
  backup : List (Str × Str)
  stats : UpdStats
deriving DecidableEq

/-- Python `Path(p).name`: the last `/`-segment of the path. -/
def baseName (p : Str) : Str := (splitSlash p).getLastD []

/-- Index of the final `.` of a basename (Python `str.rfind('.')`), if any. -/
def lastDotIdx (nm : Str) : Option Nat :=
  (nm.reverse.findIdx? fun c => c == '.').map fun j => nm.length - 1 - j

/-- `PurePath.stem`: the basename up to its final dot, when that dot is
neither leading nor trailing. -/
def stemOf (nm : Str) : Str :=
  match lastDotIdx nm with
  | some i => if 0 < i ∧ i < nm.length - 1 then nm.take i else nm
  | none => nm

/-- `PurePath.suffix`: the basename from its final dot on, when that dot is
neither leading nor trailing. -/
def sfxOf (nm : Str) : Str :=
  match lastDotIdx nm with
  | some i => if 0 < i ∧ i < nm.length - 1 then nm.drop i else []
  | none => []

/-- Writing a file: overwrite the entry in place, or create it. -/
def setFS (fs : List (Str × Str)) (k v : Str) : List (Str × Str) :=
  if k ∈ fsNames fs then fs.map fun p => if p.1 = k then (k, v) else p
  else fs ++ [(k, v)]

/-- `FileUpdater._update_file` (source lines 337–370) with explicit I/O
outcomes.  A failing step raises; the bare `except` swallows it and the call
returns with exactly the effects performed before the raise (writes are
modelled atomic): a read failure leaves everything unchanged; a backup-write
failure leaves everything unchanged; a write failure after a successful
backup leaves the content unchanged but the backup written and the
`files_backed_up` counter incremented, matching the source's statement
order. -/
def update_file_io (ms : List (Str × Str)) (cb : Bool) (o : Str → FileOracle)
    (st : RunState) (path : Str) : RunState :=
  match (if (o path).readOk then lookupFS st.main path else none) with
  | none => st
  | some content =>
    if 0 < (applyMappings ms content).2 then
      if cb then
        if (o path).backupOk then
          if (o path).writeOk then
            ⟨setFS st.main path (applyMappings ms content).1,
             writeBackup st.backup (baseName path) (stemOf (baseName path))
               (sfxOf (baseName path)) content,
             ⟨st.stats.files_updated + 1,
              st.stats.replacements + (applyMappings ms content).2,
              st.stats.files_backed_up + 1⟩⟩
          else
            ⟨st.main,
             writeBackup st.backup (baseName path) (stemOf (baseName path))
               (sfxOf (baseName path)) content,
             ⟨st.stats.files_updated, st.stats.replacements,
              st.stats.files_backed_up + 1⟩⟩
        else st
      else
        if (o path).writeOk then
          ⟨setFS st.main path (applyMappings ms content).1, st.backup,
           ⟨st.stats.files_updated + 1,
            st.stats.replacements + (applyMappings ms content).2,
            st.stats.files_backed_up⟩⟩
        else st
    else st

/-- The rewrite file set (source lines 320–323): every file path where some
mapped old URL occurs, deduplicated in encounter order. -/
def filesToUpdate (ms : List (Str × Str))
    (occ : List (Str × List (Str × Str))) : List Str :=
  ms.foldl
    (fun acc p =>
      (((occ.find? fun q => decide (q.1 = p.1)).map Prod.snd).getD []).foldl
        (fun acc2 pr => addSet acc2 pr.1) acc)
    []

/-- `FileUpdater.update_all` (source lines 311–335) with the per-file I/O
oracle: process every file of the rewrite set in order. -/
def update_all_io (ms : List (Str × Str)) (occ : List (Str × List (Str × Str)))
    (cb : Bool) (o : Str → FileOracle) (st : RunState) : RunState :=
  (filesToUpdate ms occ).foldl (update_file_io ms cb o) st

/-- Whether `_update_file` reaches its in-place write for a file, as a
function of the file's oracle and content. -/
def writesFile (fo : FileOracle) (cb : Bool) (content? : Option Str)
    (ms : List (Str × Str)) : Bool :=
  match (if fo.readOk then content? else none) with
  | none => false
  | some c =>
    decide (0 < (applyMappings ms c).2) && (if cb then fo.backupOk && fo.writeOk
      else fo.writeOk)

theorem update_file_io_main (ms : List (Str × Str)) (cb : Bool)
    (o : Str → FileOracle) (st : RunState) (p : Str) :
    (update_file_io ms cb o st p).main =
      if writesFile (o p) cb (lookupFS st.main p) ms = true then
        setFS st.main p (applyMappings ms ((lookupFS st.main p).getD [])).1
      else st.main := by
  unfold update_file_io writesFile
  cases hval : (if (o p).readOk = true then lookupFS st.main p else none) with
  | none =>
    cases hro : (o p).readOk with
    | false => simp [hro]
    | true =>
      rw [hro] at hval
      simp at hval
      simp [hval]
  | some c =>
    have hro : (o p).readOk = true := by
      cases hro : (o p).readOk with
      | false => rw [hro] at hval; simp at hval
      | true => rfl
    rw [hro] at hval
    simp at hval
    rw [hval]
    simp only [Option.getD_some]
    by_cases hreps : 0 < (applyMappings ms c).2
    · cases cb with
      | false =>
        cases hw : (o p).writeOk with
        | false => simp [hreps, hw]
        | true => simp [hreps, hw]
      | true =>
        cases hb : (o p).backupOk with
        | false => simp [hreps, hb]
        | true =>
          cases hw : (o p).writeOk with
          | false => simp [hreps, hb, hw]
          | true => simp [hreps, hb, hw]
    · simp [hreps]

theorem find?_map_update (k v q : Str) (hq : q ≠ k) :
    ∀ rest : List (Str × Str),
      (rest.map fun p => if p.1 = k then (k, v) else p).find?
        (fun p => decide (p.1 = q)) = rest.find? fun p => decide (p.1 = q) := by
  intro rest
  induction rest with
  | nil => rfl
  | cons a tl ih =>
    rw [List.map_cons]
    by_cases ha : a.1 = k
    · rw [if_pos ha,
        List.find?_cons_of_neg _ (by simpa using fun h => hq h.symm),
        List.find?_cons_of_neg _ (by
          simp only [decide_eq_true_eq]
          rw [ha]
          exact fun h => hq h.symm)]
      exact ih
    · rw [if_neg ha]
      by_cases haq : a.1 = q
      · rw [List.find?_cons_of_pos _ (by simpa using haq),
          List.find?_cons_of_pos _ (by simpa using haq)]
      · rw [List.find?_cons_of_neg _ (by simpa using haq),
          List.find?_cons_of_neg _ (by simpa using haq)]
        exact ih

theorem find?_append_single (k v q : Str) (hq : q ≠ k) :
    ∀ rest : List (Str × Str),
      (rest ++ [(k, v)]).find? (fun p => decide (p.1 = q)) =
        rest.find? fun p => decide (p.1 = q) := by
  intro rest
  induction rest with
  | nil =>
    rw [List.nil_append,
      List.find?_cons_of_neg _ (by simpa using fun h => hq h.symm)]
  | cons a tl ih =>
    rw [List.cons_append]
    by_cases haq : a.1 = q
    · rw [List.find?_cons_of_pos _ (by simpa using haq),
        List.find?_cons_of_pos _ (by simpa using haq)]
    · rw [List.find?_cons_of_neg _ (by simpa using haq),
        List.find?_cons_of_neg _ (by simpa using haq)]
      exact ih

theorem lookupFS_setFS_other (fs : List (Str × Str)) (k v q : Str) (hq : q ≠ k) :
    lookupFS (setFS fs k v) q = lookupFS fs q := by
  unfold setFS lookupFS
  by_cases hk : k ∈ fsNames fs
  · rw [if_pos hk, find?_map_update k v q hq]
  · rw [if_neg hk, find?_append_single k v q hq]

theorem find?_map_update_self (k v : Str) :
    ∀ rest : List (Str × Str), k ∈ rest.map Prod.fst →
      (rest.map fun p => if p.1 = k then (k, v) else p).find?
        (fun p => decide (p.1 = k)) = some (k, v) := by
  intro rest
  induction rest with
  | nil => intro h; simp at h
  | cons a tl ih =>
    intro hk
    rw [List.map_cons]
    by_cases ha : a.1 = k
    · rw [if_pos ha, List.find?_cons_of_pos _ (by simp)]
    · rw [if_neg ha, List.find?_cons_of_neg _ (by simpa using ha)]
      refine ih ?_
      rcases List.mem_map.mp hk with ⟨p, hp, hpk⟩
      rcases List.mem_cons.mp hp with rfl | hp2
      · exact absurd hpk ha
      · exact List.mem_map.mpr ⟨p, hp2, hpk⟩

theorem find?_append_single_self (k v : Str) :
    ∀ rest : List (Str × Str), k ∉ rest.map Prod.fst →
      (rest ++ [(k, v)]).find? (fun p => decide (p.1 = k)) = some (k, v) := by
  intro rest
  induction rest with
  | nil => intro _; rw [List.nil_append, List.find?_cons_of_pos _ (by simp)]
  | cons a tl ih =>
    intro hk
    rw [List.cons_append,
      List.find?_cons_of_neg _ (by
        simp only [decide_eq_true_eq]
        exact fun h => hk (List.mem_map.mpr ⟨a, by simp, h⟩))]
    exact ih fun h => hk (by
      rcases List.mem_map.mp h with ⟨p, hp, hpk⟩
      exact List.mem_map.mpr ⟨p, by simp [hp], hpk⟩)

theorem lookupFS_setFS_self (fs : List (Str × Str)) (k v : Str) :
    lookupFS (setFS fs k v) k = some v := by
  unfold setFS lookupFS
  by_cases hk : k ∈ fsNames fs
  · rw [if_pos hk, find?_map_update_self k v fs hk]
    rfl
  · rw [if_neg hk, find?_append_single_self k v fs hk]
    rfl

theorem update_file_io_frame (ms : List (Str × Str)) (cb : Bool)
    (o : Str → FileOracle) (st : RunState) (p q : Str) (hq : q ≠ p) :
    lookupFS (update_file_io ms cb o st p).main q = lookupFS st.main q := by
  rw [update_file_io_main]
  by_cases hw : writesFile (o p) cb (lookupFS st.main p) ms = true
  · rw [if_pos hw, lookupFS_setFS_other _ _ _ _ hq]
  · rw [if_neg hw]

theorem update_file_io_untouched (ms : List (Str × Str)) (cb : Bool)
    (o : Str → FileOracle) (st : RunState) (p : Str)
    (hfail : (o p).readOk = false ∨ (o p).writeOk = false ∨
      (cb = true ∧ (o p).backupOk = false)) :
    (update_file_io ms cb o st p).main = st.main := by
  rw [update_file_io_main]
  have hw : writesFile (o p) cb (lookupFS st.main p) ms = false := by
    unfold writesFile
    rcases hfail with h | h | ⟨hcb, h⟩
    · rw [h]
      simp
    · cases hro : (o p).readOk
      · simp
      · cases hc : lookupFS st.main p
        · simp
        · cases cb <;> simp [h]
    · cases hro : (o p).readOk
      · simp
      · cases hc : lookupFS st.main p
        · simp
        · simp [hcb, h]
  rw [hw]
  simp

theorem update_file_io_bisim (ms : List (Str × Str)) (cb : Bool)
    (o o' : Str → FileOracle) (f p : Str) (hop : p = f ∨ o p = o' p)
    (st1 st2 : RunState)
    (hR : ∀ q, q ≠ f → lookupFS st1.main q = lookupFS st2.main q) :
    ∀ q, q ≠ f → lookupFS (update_file_io ms cb o st1 p).main q =
      lookupFS (update_file_io ms cb o' st2 p).main q := by
  intro q hq
  rcases hop with rfl | hop
  · rw [update_file_io_frame ms cb o st1 p q hq,
      update_file_io_frame ms cb o' st2 p q hq]
    exact hR q hq
  · by_cases hpf : p = f
    · subst hpf
      rw [update_file_io_frame ms cb o st1 p q hq,
        update_file_io_frame ms cb o' st2 p q hq]
      exact hR q hq
    · have hcont : lookupFS st1.main p = lookupFS st2.main p := hR p hpf
      rw [update_file_io_main, update_file_io_main, hop, hcont]
      by_cases hw : writesFile (o' p) cb (lookupFS st2.main p) ms = true
      · rw [if_pos hw, if_pos hw]
        by_cases hqp : q = p
        · subst hqp
          rw [lookupFS_setFS_self, lookupFS_setFS_self]
        · rw [lookupFS_setFS_other _ _ _ _ hqp, lookupFS_setFS_other _ _ _ _ hqp]
          exact hR q hq
      · rw [if_neg hw, if_neg hw]
        exact hR q hq

theorem foldl_update_bisim (ms : List (Str × Str)) (cb : Bool)
    (o o' : Str → FileOracle) (f : Str) (ho : ∀ g, g ≠ f → o g = o' g) :
    ∀ (files : List Str) (st1 st2 : RunState),
      (∀ q, q ≠ f → lookupFS st1.main q = lookupFS st2.main q) →
      ∀ q, q ≠ f →
        lookupFS (files.foldl (update_file_io ms cb o) st1).main q =
          lookupFS (files.foldl (update_file_io ms cb o') st2).main q := by
  intro files
  induction files with
  | nil => intro st1 st2 hR q hq; exact hR q hq
  | cons p rest ih =>
    intro st1 st2 hR q hq
    rw [List.foldl_cons, List.foldl_cons]
    refine ih _ _ ?_ q hq
    exact update_file_io_bisim ms cb o o' f p
      (by
        by_cases hpf : p = f
        · exact Or.inl hpf
        · exact Or.inr (ho p hpf))
      st1 st2 hR

/-- **C9.** Per-file I/O failures in the rewrite stage are swallowed and
local: (a) a file whose read, backup write or in-place write fails is left
with its content untouched (the model is total — the bare `except` swallows
the raise); (b) a file's processing writes no other file; (c) the rewritten
content of every other file is identical between a run and any run whose
oracle differs only at the failing file — one file's I/O errors never affect
the others, and the run processes every file of the rewrite set. -/
theorem C9_io_failures_are_local :
    (∀ (ms : List (Str × Str)) (cb : Bool) (o : Str → FileOracle)
      (st : RunState) (p : Str),
      (o p).readOk = false ∨ (o p).writeOk = false ∨
        (cb = true ∧ (o p).backupOk = false) →
      (update_file_io ms cb o st p).main = st.main) ∧
    (∀ (ms : List (Str × Str)) (cb : Bool) (o : Str → FileOracle)
      (st : RunState) (p q : Str), q ≠ p →
      lookupFS (update_file_io ms cb o st p).main q = lookupFS st.main q) ∧
    (∀ (ms : List (Str × Str)) (occ : List (Str × List (Str × Str))) (cb : Bool)
      (o o' : Str → FileOracle) (f : Str) (st : RunState),
      (∀ g, g ≠ f → o g = o' g) →
      ∀ q, q ≠ f →
        lookupFS (update_all_io ms occ cb o st).main q =
          lookupFS (update_all_io ms occ cb o' st).main q) := by
  refine ⟨update_file_io_untouched, update_file_io_frame, ?_⟩
  intro ms occ cb o o' f st ho q hq
  unfold update_all_io
  exact foldl_update_bisim ms cb o o' f ho (filesToUpdate ms occ) st st
    (fun _ _ => rfl) q hq

end FWScan
